import Mathlib

/-!
Verification development for the `scenegraph` example of the `nodegraph`
repository (`src/examples/scenegraph.rs`).

The example builds a single-rooted hierarchy of 2D transforms on top of the
generic `NodeGraph` store and computes every node's global transform by a
depth-first traversal from the root.

Embedding choices:
* `f32` is modelled by the exact rationals `ℚ`; the only operation the code
  performs on transform components is addition.  This idealization is exact on
  the driver's concrete values and unused by the structural claims, but it
  does not model `f32` rounding: `f32` addition itself is not associative
  (e.g. `(1.0 + 1e38) + (-1e38) = 0.0` while `1.0 + (1e38 + (-1e38)) = 1.0`),
  so algebraic laws of `aggregate` that hinge on rounding cannot be settled
  over this model.
* The generic `NodeGraph<ID, E, D>` store is the repository's library code and
  is not part of the example file; it is modelled from the spec (§4.2) as an
  association list of nodes plus a list of directed labelled edges, each
  insertion appending at the end.
* Rust's `HashMap<ID, Transform>` result is modelled as an association list
  with insert-or-overwrite semantics (`hmInsert`); map equality is stated at
  the level of `alist_get` lookups, matching `HashMap` equality.
* The recursive `traverse` helper of `calculate_global_transforms` is given an
  explicit fuel argument (Lean requires a termination measure; the Rust
  recursion is unbounded and diverges on cyclic stores, which the spec rules
  out).  `calculate_global_transforms` instantiates the fuel with the number
  of stored nodes, which is proved sufficient for every hierarchy built
  through the public API.
-/

set_option autoImplicit false

universe u v

variable {ID : Type u} {α : Type v} {E D : Type v}

/-- Lookup of the first value bound to a key in an association list; this is
the behaviour of `List::find`-style association lookup and of the modelled
store's payload lookup. -/
def alist_get [DecidableEq ID] : List (ID × α) → ID → Option α
  | [], _ => none
  | q :: rest, k => if q.1 = k then some q.2 else alist_get rest k

/-- Transform: value type for a 2D rigid placement (`position` in exact
coordinates standing for the `f32` pair, `rotation` in degrees). -/
structure Transform where
  position : ℚ × ℚ
  rotation : ℚ
deriving DecidableEq, Repr

/-- `Transform::new(x, y, rotation)`. -/
def Transform.new (x y rotation : ℚ) : Transform :=
  { position := (x, y), rotation := rotation }

/-- `Transform::aggregate`: component-wise addition of positions and addition
of rotations. -/
def Transform.aggregate (self parent : Transform) : Transform :=
  { position :=
      (self.position.1 + parent.position.1, self.position.2 + parent.position.2),
    rotation := self.rotation + parent.rotation }

/-- Modelled from the spec: the `NodeGraph` store of the `nodegraph` library
(not under `src/`), holding nodes keyed by an identifier with an opaque
payload, plus directed labelled edges.  Insertions append at the end. -/
structure NodeGraph (ID : Type u) (E D : Type v) where
  nodes : List (ID × D)
  edges : List (ID × ID × E)

/-- Modelled from the spec: an empty store. -/
def NodeGraph.new : NodeGraph ID E D :=
  { nodes := [], edges := [] }

/-- Whether the store holds a node with the given identifier. -/
def NodeGraph.contains_node [DecidableEq ID] (g : NodeGraph ID E D) (id : ID) : Bool :=
  (alist_get g.nodes id).isSome

/-- Modelled from the spec: `insert_node`.  The spec leaves duplicate-id
behaviour implementation-defined; the model overwrites the payload in place,
and fresh identifiers are appended. -/
def NodeGraph.add_node [DecidableEq ID] (g : NodeGraph ID E D) (id : ID) (d : D) :
    NodeGraph ID E D :=
  if g.contains_node id then
    { g with nodes := g.nodes.map (fun q => if q.1 = id then (id, d) else q) }
  else
    { g with nodes := g.nodes ++ [(id, d)] }

/-- Modelled from the spec: `insert_edge`, which fails (recoverably) when the
source identifier is not a known node id. -/
def NodeGraph.add_edge [DecidableEq ID] (g : NodeGraph ID E D) (src dst : ID) (e : E) :
    Except String (NodeGraph ID E D) :=
  if g.contains_node src then
    .ok { g with edges := g.edges ++ [(src, dst, e)] }
  else
    .error "missing source node"

/-- Modelled from the spec: `get_payload` / `node_data` lookup. -/
def NodeGraph.node_data [DecidableEq ID] (g : NodeGraph ID E D) (id : ID) : Option D :=
  alist_get g.nodes id

/-- The outgoing `(target, label)` pairs of a node, in edge-insertion order. -/
def NodeGraph.outgoing [DecidableEq ID] (g : NodeGraph ID E D) (id : ID) :
    List (ID × E) :=
  g.edges.filterMap (fun e => if e.1 = id then some (e.2.1, e.2.2) else none)

/-- Modelled from the spec: adjacency lookup, `none` when the node has no
recorded outgoing edges. -/
def NodeGraph.get_edges_connected_to_node [DecidableEq ID] (g : NodeGraph ID E D)
    (id : ID) : Option (List (ID × E)) :=
  if (g.outgoing id).isEmpty then none else some (g.outgoing id)

/-- `SceneGraph`: the hierarchy, i.e. one designated root identifier plus the
store instance. -/
structure SceneGraph (ID : Type u) where
  graph : NodeGraph ID Unit Transform
  root_id : ID

/-- `SceneGraph::new`: creates an empty store and inserts the root node with
the identity local transform. -/
def SceneGraph.new [DecidableEq ID] (root_id : ID) : SceneGraph ID :=
  { graph := NodeGraph.new.add_node root_id (Transform.new 0 0 0), root_id := root_id }

/-- `SceneGraph::add_child`: inserts the child node with its local transform,
then inserts a parent→child edge; the edge failure is surfaced as a
descriptive error string.  The returned pair is (state after the call, call
result), making the mutation of `self` explicit. -/
def SceneGraph.add_child [DecidableEq ID] (sg : SceneGraph ID)
    (child_id parent_id : ID) (transform : Transform) :
    SceneGraph ID × Except String Unit :=
  let g1 := sg.graph.add_node child_id transform
  match g1.add_edge parent_id child_id () with
  | .ok g2 => ({ sg with graph := g2 }, .ok ())
  | .error _ => ({ sg with graph := g1 }, .error "Failed to add edge. Does the parent exist?")

/-- `HashMap::insert` on the association-list model: overwrite the binding in
place when the key is present, append otherwise. -/
def hmInsert [DecidableEq ID] (m : List (ID × Transform)) (k : ID) (v : Transform) :
    List (ID × Transform) :=
  if (alist_get m k).isSome then
    m.map (fun q => if q.1 = k then (k, v) else q)
  else
    m ++ [(k, v)]

/-- The inner `traverse` helper of `calculate_global_transforms`, with an
explicit fuel argument bounding the recursion depth. -/
def SceneGraph.traverse [DecidableEq ID] (g : NodeGraph ID Unit Transform) :
    Nat → ID → Transform → List (ID × Transform) → List (ID × Transform)
  | 0, _, _, m => m
  | fuel + 1, node_id, current_transform, m =>
    match g.node_data node_id with
    | none => m
    | some local_transform =>
      let global_transform := local_transform.aggregate current_transform
      let m1 := hmInsert m node_id global_transform
      match g.get_edges_connected_to_node node_id with
      | none => m1
      | some children =>
        children.foldl (fun acc ce => SceneGraph.traverse g fuel ce.1 global_transform acc) m1

/-- `SceneGraph::calculate_global_transforms`: starts the traversal at the
root with the root's local transform (identity when the root is missing from
the store).  The fuel is the number of stored nodes, which bounds the depth of
every hierarchy built through the API. -/
def SceneGraph.calculate_global_transforms [DecidableEq ID] (sg : SceneGraph ID) :
    List (ID × Transform) :=
  let root_transform := (sg.graph.node_data sg.root_id).getD (Transform.new 0 0 0)
  SceneGraph.traverse sg.graph sg.graph.nodes.length sg.root_id root_transform []

/-- The identifiers of the stored nodes, in insertion order. -/
def nodeIds (g : NodeGraph ID E D) : List ID :=
  g.nodes.map Prod.fst

/-- The identifiers of a node's children, in edge-insertion order. -/
def childrenOf [DecidableEq ID] (g : NodeGraph ID Unit Transform) (n : ID) : List ID :=
  (g.outgoing n).map Prod.fst

/-- The targets of all stored edges, in insertion order. -/
def edgeTargets (g : NodeGraph ID E D) : List ID :=
  g.edges.map (fun e => e.2.1)

/-- The pre-order list of `(node, global transform)` entries produced by the
depth-first traversal, without the accumulator threading of `traverse`.  On
hierarchies built through the API, `traverse` equals appending this list. -/
def visitList [DecidableEq ID] (g : NodeGraph ID Unit Transform) :
    Nat → ID → Transform → List (ID × Transform)
  | 0, _, _ => []
  | fuel + 1, x, cur =>
    match g.node_data x with
    | none => []
    | some lt =>
      (x, lt.aggregate cur) ::
        (childrenOf g x).flatMap (fun c => visitList g fuel c (lt.aggregate cur))

/-- The pre-order list of node identifiers visited by the traversal. -/
def visitIds [DecidableEq ID] (g : NodeGraph ID Unit Transform) :
    Nat → ID → List ID
  | 0, _ => []
  | fuel + 1, x =>
    match g.node_data x with
    | none => []
    | some _ => x :: (childrenOf g x).flatMap (fun c => visitIds g fuel c)

/-- `Bounded g x d`: every descending chain of child edges from `x` has fewer
than `d` nodes; certifies that `d` units of fuel fully explore `x`'s subtree. -/
inductive Bounded [DecidableEq ID] (g : NodeGraph ID Unit Transform) : ID → Nat → Prop
  | step {x : ID} {d : Nat} :
      (∀ c ∈ childrenOf g x, Bounded g c d) → Bounded g x (d + 1)

/-- Replaying a list of `(child, parent, transform)` calls through
`SceneGraph.add_child`, keeping the post-call state whether or not the call
succeeded (the Rust method mutates `self` before it can fail). -/
def applyOps [DecidableEq ID] (sg : SceneGraph ID) :
    List (ID × ID × Transform) → SceneGraph ID
  | [] => sg
  | op :: rest => applyOps (sg.add_child op.1 op.2.1 op.2.2).1 rest

/-- The hierarchy obtained from `SceneGraph.new root` by the given
`add_child` calls. -/
def build [DecidableEq ID] (root : ID) (ops : List (ID × ID × Transform)) :
    SceneGraph ID :=
  applyOps (SceneGraph.new root) ops

/-- `goodOps seen ops`: starting from the node identifiers `seen`, every call
names an already-present parent and a globally fresh child.  This captures the
spec's `add_child` contract (§4.1: the child identifier is new, the parent is
an existing node), under which every call succeeds. -/
def goodOps [DecidableEq ID] : List ID → List (ID × ID × Transform) → Prop
  | _, [] => True
  | seen, op :: rest => op.2.1 ∈ seen ∧ op.1 ∉ seen ∧ goodOps (seen ++ [op.1]) rest

instance goodOpsDecidable [DecidableEq ID] :
    (seen : List ID) → (ops : List (ID × ID × Transform)) → Decidable (goodOps seen ops)
  | _, [] => isTrue trivial
  | seen, op :: rest =>
    have : Decidable (goodOps (seen ++ [op.1]) rest) := goodOpsDecidable _ rest
    inferInstanceAs (Decidable (op.2.1 ∈ seen ∧ op.1 ∉ seen ∧ goodOps (seen ++ [op.1]) rest))

/-- Every call in the list returns `Ok` when replayed from `sg`. -/
def opsSucceed [DecidableEq ID] (sg : SceneGraph ID) :
    List (ID × ID × Transform) → Prop
  | [] => True
  | op :: rest =>
    (sg.add_child op.1 op.2.1 op.2.2).2 = .ok () ∧
      opsSucceed (sg.add_child op.1 op.2.1 op.2.2).1 rest

/-- The reference global-transform table: one entry per node in insertion
order, each child's global transform being its local transform aggregated with
its parent's already-computed global transform. -/
def specGlobals [DecidableEq ID] (root : ID) (ops : List (ID × ID × Transform)) :
    List (ID × Transform) :=
  ops.foldl
    (fun acc op =>
      acc ++ [(op.1, op.2.2.aggregate ((alist_get acc op.2.1).getD (Transform.new 0 0 0)))])
    [(root, Transform.new 0 0 0)]

/-- Remove every binding of the key `c` from an association list. -/
def eraseKey [DecidableEq ID] (c : ID) : List (ID × α) → List (ID × α)
  | [] => []
  | q :: rest => if q.1 = c then eraseKey c rest else q :: eraseKey c rest

/-- The 4-node hierarchy built by the reference driver (`main`): root with two
children, and a grandchild under `"child1"`. -/
def exampleScene : SceneGraph String :=
  ((((SceneGraph.new "root").add_child "child1" "root" (Transform.new 1 0 30)).1.add_child
      "child2" "root" (Transform.new 0 2 (-15))).1.add_child
      "grandchild" "child1" (Transform.new (1/2) (1/2) 45)).1

/-! ### Association-list lemmas -/

theorem alist_get_append_left [DecidableEq ID] {l₁ l₂ : List (ID × α)} {k : ID}
    {v : α} (h : alist_get l₁ k = some v) : alist_get (l₁ ++ l₂) k = some v := by
  induction l₁ with
  | nil => simp [alist_get] at h
  | cons q rest ih =>
    by_cases hq : q.1 = k <;> simp_all [alist_get]

theorem alist_get_append_right [DecidableEq ID] {l₁ l₂ : List (ID × α)} {k : ID}
    (h : alist_get l₁ k = none) : alist_get (l₁ ++ l₂) k = alist_get l₂ k := by
  induction l₁ with
  | nil => simp [alist_get]
  | cons q rest ih =>
    by_cases hq : q.1 = k <;> simp_all [alist_get]

theorem alist_get_eq_none_iff [DecidableEq ID] {l : List (ID × α)} {k : ID} :
    alist_get l k = none ↔ k ∉ l.map Prod.fst := by
  induction l with
  | nil => simp [alist_get]
  | cons q rest ih =>
    by_cases hq : q.1 = k <;> simp_all [alist_get, eq_comm]

theorem alist_get_isSome_iff [DecidableEq ID] {l : List (ID × α)} {k : ID} :
    (alist_get l k).isSome ↔ k ∈ l.map Prod.fst := by
  induction l with
  | nil => simp [alist_get]
  | cons q rest ih =>
    by_cases hq : q.1 = k
    · subst hq
      simp [alist_get]
    · simp [alist_get, hq, ih, Ne.symm hq]

theorem alist_get_mem [DecidableEq ID] {l : List (ID × α)} {k : ID} {v : α}
    (h : alist_get l k = some v) : (k, v) ∈ l := by
  induction l with
  | nil => simp [alist_get] at h
  | cons q rest ih =>
    rcases q with ⟨a, b⟩
    by_cases hq : a = k
    · simp only [alist_get, hq, if_pos, Option.some.injEq] at h
      subst hq
      subst h
      exact List.mem_cons_self _ _
    · simp only [alist_get, hq, if_neg, not_false_iff] at h
      exact List.mem_cons_of_mem _ (ih h)

theorem mem_alist_get [DecidableEq ID] {l : List (ID × α)} {k : ID} {v : α}
    (nd : (l.map Prod.fst).Nodup) (h : (k, v) ∈ l) : alist_get l k = some v := by
  induction l with
  | nil => simp at h
  | cons q rest ih =>
    simp only [List.map_cons, List.nodup_cons] at nd
    rcases List.mem_cons.1 h with h1 | h1
    · simp [← h1, alist_get]
    · have hne : q.1 ≠ k := by
        intro hk
        exact nd.1 (hk ▸ (List.mem_map.2 ⟨(k, v), h1, rfl⟩))
      simp [alist_get, hne]
      exact ih nd.2 h1

theorem alist_get_eraseKey_ne [DecidableEq ID] {l : List (ID × α)} {k c : ID}
    (h : k ≠ c) : alist_get (eraseKey c l) k = alist_get l k := by
  induction l with
  | nil => simp [eraseKey]
  | cons q rest ih =>
    by_cases hq : q.1 = c
    · have hk : q.1 ≠ k := by rw [hq]; exact Ne.symm h
      simp [eraseKey, alist_get, hq, hk, ih, h, Ne.symm h]
    · by_cases hk : q.1 = k <;>
        simp [eraseKey, alist_get, hq, hk, ih, h, Ne.symm h]

theorem alist_get_eraseKey_self [DecidableEq ID] {l : List (ID × α)} {c : ID} :
    alist_get (eraseKey c l) c = none := by
  induction l with
  | nil => simp [eraseKey, alist_get]
  | cons q rest ih =>
    by_cases hq : q.1 = c <;> simp [eraseKey, alist_get, hq, ih]

theorem eraseKey_of_not_mem [DecidableEq ID] {l : List (ID × α)} {c : ID}
    (h : c ∉ l.map Prod.fst) : eraseKey c l = l := by
  induction l with
  | nil => rfl
  | cons q rest ih =>
    simp only [List.map_cons, List.mem_cons, not_or] at h
    have h1 : q.1 ≠ c := by
      intro hq
      exact h.1 hq.symm
    simp [eraseKey, h1, ih h.2]

theorem map_fst_eraseKey [DecidableEq ID] {l : List (ID × α)} {c : ID}
    (nd : (l.map Prod.fst).Nodup) :
    (eraseKey c l).map Prod.fst = (l.map Prod.fst).erase c := by
  induction l with
  | nil => rfl
  | cons q rest ih =>
    simp only [List.map_cons, List.nodup_cons] at nd
    by_cases hq : q.1 = c
    · rw [List.map_cons, hq, List.erase_cons_head]
      have : c ∉ rest.map Prod.fst := hq ▸ nd.1
      simp [eraseKey, hq, eraseKey_of_not_mem this]
    · simp [eraseKey, hq, List.erase_cons_tail, ih nd.2,
        List.map_cons, hq]

theorem hmInsert_fresh [DecidableEq ID] {m : List (ID × Transform)} {k : ID}
    {v : Transform} (h : alist_get m k = none) : hmInsert m k v = m ++ [(k, v)] := by
  simp [hmInsert, h]

/-! ### Unfolding lemmas for the traversal -/

theorem traverse_zero [DecidableEq ID] (g : NodeGraph ID Unit Transform)
    (x : ID) (cur : Transform) (m : List (ID × Transform)) :
    SceneGraph.traverse g 0 x cur m = m := rfl

theorem traverse_succ_none [DecidableEq ID] {g : NodeGraph ID Unit Transform}
    {fuel : Nat} {x : ID} (cur : Transform) (m : List (ID × Transform))
    (h : g.node_data x = none) : SceneGraph.traverse g (fuel + 1) x cur m = m := by
  simp [SceneGraph.traverse, h]

theorem traverse_succ_some [DecidableEq ID] {g : NodeGraph ID Unit Transform}
    {fuel : Nat} {x : ID} {lt : Transform} (cur : Transform)
    (m : List (ID × Transform)) (h : g.node_data x = some lt) :
    SceneGraph.traverse g (fuel + 1) x cur m =
      (childrenOf g x).foldl
        (fun acc cid => SceneGraph.traverse g fuel cid (lt.aggregate cur) acc)
        (hmInsert m x (lt.aggregate cur)) := by
  simp only [SceneGraph.traverse, h]
  by_cases he : (g.outgoing x).isEmpty
  · have hnil : g.outgoing x = [] := List.isEmpty_iff.mp he
    simp [NodeGraph.get_edges_connected_to_node, he, childrenOf, hnil]
  · simp [NodeGraph.get_edges_connected_to_node, he, childrenOf, List.foldl_map]

theorem visitList_zero [DecidableEq ID] (g : NodeGraph ID Unit Transform)
    (x : ID) (cur : Transform) : visitList g 0 x cur = [] := rfl

theorem visitList_succ_none [DecidableEq ID] {g : NodeGraph ID Unit Transform}
    {fuel : Nat} {x : ID} (cur : Transform) (h : g.node_data x = none) :
    visitList g (fuel + 1) x cur = [] := by
  simp [visitList, h]

theorem visitList_succ_some [DecidableEq ID] {g : NodeGraph ID Unit Transform}
    {fuel : Nat} {x : ID} {lt : Transform} (cur : Transform)
    (h : g.node_data x = some lt) :
    visitList g (fuel + 1) x cur =
      (x, lt.aggregate cur) ::
        (childrenOf g x).flatMap (fun c => visitList g fuel c (lt.aggregate cur)) := by
  simp [visitList, h]

theorem visitIds_zero [DecidableEq ID] (g : NodeGraph ID Unit Transform) (x : ID) :
    visitIds g 0 x = [] := rfl

theorem visitIds_succ_none [DecidableEq ID] {g : NodeGraph ID Unit Transform}
    {fuel : Nat} {x : ID} (h : g.node_data x = none) :
    visitIds g (fuel + 1) x = [] := by
  simp [visitIds, h]

theorem visitIds_succ_some [DecidableEq ID] {g : NodeGraph ID Unit Transform}
    {fuel : Nat} {x : ID} {lt : Transform} (h : g.node_data x = some lt) :
    visitIds g (fuel + 1) x = x :: (childrenOf g x).flatMap (fun c => visitIds g fuel c) := by
  simp [visitIds, h]

theorem visitList_map_fst [DecidableEq ID] (g : NodeGraph ID Unit Transform) :
    ∀ (fuel : Nat) (x : ID) (cur : Transform),
      (visitList g fuel x cur).map Prod.fst = visitIds g fuel x := by
  intro fuel
  induction fuel with
  | zero => intro x cur; rfl
  | succ fuel ih =>
    intro x cur
    cases h : g.node_data x with
    | none => rw [visitList_succ_none cur h, visitIds_succ_none h]; rfl
    | some lt =>
      rw [visitList_succ_some cur h, visitIds_succ_some h, List.map_cons,
        List.map_flatMap]
      simp only [ih]

/-- The accumulator-threading fold of `traverse` over a list of children is an
append, provided all inserted keys are fresh. -/
theorem foldl_traverse_append [DecidableEq ID] (g : NodeGraph ID Unit Transform)
    (fuel : Nat) (glob : Transform)
    (H : ∀ (x : ID) (cur : Transform) (m : List (ID × Transform)),
      (visitIds g fuel x).Nodup →
      (∀ k ∈ visitIds g fuel x, alist_get m k = none) →
      SceneGraph.traverse g fuel x cur m = m ++ visitList g fuel x cur) :
    ∀ (cs : List ID) (m : List (ID × Transform)),
      (cs.flatMap (fun c => visitIds g fuel c)).Nodup →
      (∀ k ∈ cs.flatMap (fun c => visitIds g fuel c), alist_get m k = none) →
      cs.foldl (fun acc cid => SceneGraph.traverse g fuel cid glob acc) m
        = m ++ cs.flatMap (fun c => visitList g fuel c glob) := by
  intro cs
  induction cs with
  | nil => intro m _ _; simp
  | cons c cs ihc =>
    intro m nd dis
    rw [List.flatMap_cons] at nd dis ⊢
    rw [List.foldl_cons]
    have pieces := List.nodup_append.mp nd
    have step : SceneGraph.traverse g fuel c glob m = m ++ visitList g fuel c glob :=
      H c glob m pieces.1 (fun k hk => dis k (List.mem_append.2 (Or.inl hk)))
    have hdis2 : ∀ k ∈ cs.flatMap (fun c => visitIds g fuel c),
        alist_get (m ++ visitList g fuel c glob) k = none := by
      intro k hk
      have h1 : alist_get m k = none := dis k (List.mem_append.2 (Or.inr hk))
      rw [alist_get_append_right h1, alist_get_eq_none_iff, visitList_map_fst]
      exact fun hmem => pieces.2.2 hmem hk
    rw [step, ihc _ pieces.2.1 hdis2, List.append_assoc]

/-- When the visited identifiers are distinct and disjoint from the keys of
the accumulator, `traverse` appends the pre-order visit list to the
accumulator. -/
theorem traverse_eq_append_visitList [DecidableEq ID]
    (g : NodeGraph ID Unit Transform) :
    ∀ (fuel : Nat) (x : ID) (cur : Transform) (m : List (ID × Transform)),
      (visitIds g fuel x).Nodup →
      (∀ k ∈ visitIds g fuel x, alist_get m k = none) →
      SceneGraph.traverse g fuel x cur m = m ++ visitList g fuel x cur := by
  intro fuel
  induction fuel with
  | zero => intro x cur m _ _; simp [traverse_zero, visitList_zero]
  | succ fuel ih =>
    intro x cur m nd dis
    cases h : g.node_data x with
    | none => rw [traverse_succ_none cur m h, visitList_succ_none cur h, List.append_nil]
    | some lt =>
      rw [traverse_succ_some cur m h, visitList_succ_some cur h]
      rw [visitIds_succ_some h] at nd dis
      have ndtail := (List.nodup_cons.mp nd).2
      have hx : alist_get m x = none := dis x (List.mem_cons_self _ _)
      have hdis2 : ∀ k ∈ (childrenOf g x).flatMap (fun c => visitIds g fuel c),
          alist_get (m ++ [(x, lt.aggregate cur)]) k = none := by
        intro k hk
        have hkx : k ≠ x := fun hkx => (List.nodup_cons.mp nd).1 (hkx ▸ hk)
        have h1 : alist_get m k = none := dis k (List.mem_cons_of_mem _ hk)
        rw [alist_get_append_right h1]
        simp [alist_get, hkx, Ne.symm hkx]
      rw [hmInsert_fresh hx,
        foldl_traverse_append g fuel (lt.aggregate cur) ih _ _ ndtail hdis2,
        List.append_assoc]
      rfl

/-! ### Structure of `add_child` and of built hierarchies -/

theorem contains_node_iff [DecidableEq ID] {g : NodeGraph ID E D} {k : ID} :
    g.contains_node k = true ↔ k ∈ nodeIds g := by
  rw [NodeGraph.contains_node, nodeIds, alist_get_isSome_iff]

theorem alist_get_append_singleton_ne [DecidableEq ID] {l : List (ID × α)}
    {k c : ID} {v : α} (h : k ≠ c) : alist_get (l ++ [(c, v)]) k = alist_get l k := by
  cases hl : alist_get l k with
  | none => rw [alist_get_append_right hl]; simp [alist_get, Ne.symm h]
  | some w => rw [alist_get_append_left hl]

theorem alist_get_map_replace [DecidableEq ID] {l : List (ID × α)} {c : ID} {d : α}
    (h : c ∈ l.map Prod.fst) :
    alist_get (l.map (fun q => if q.1 = c then (c, d) else q)) c = some d := by
  induction l with
  | nil => simp at h
  | cons q rest ih =>
    by_cases hq : q.1 = c
    · simp [alist_get, hq]
    · have hc : c ∈ rest.map Prod.fst := by
        rcases List.mem_map.1 h with ⟨q0, hq0, hq01⟩
        rcases List.mem_cons.1 hq0 with h1 | h1
        · exact absurd (h1 ▸ hq01) hq
        · exact List.mem_map.2 ⟨q0, h1, hq01⟩
      simp [alist_get, hq, ih hc]

theorem add_node_node_data_self [DecidableEq ID] (g : NodeGraph ID E D) (c : ID)
    (d : D) : (g.add_node c d).node_data c = some d := by
  rw [NodeGraph.node_data, NodeGraph.add_node]
  by_cases h : g.contains_node c = true
  · rw [if_pos h]
    have hm : c ∈ g.nodes.map Prod.fst := contains_node_iff.mp h
    exact alist_get_map_replace hm
  · rw [if_neg h]
    have hn : alist_get g.nodes c = none := by
      cases hx : alist_get g.nodes c with
      | none => rfl
      | some w => exact absurd (by rw [NodeGraph.contains_node, hx]; rfl) h
    rw [alist_get_append_right hn]
    simp [alist_get]

theorem add_node_fresh [DecidableEq ID] {g : NodeGraph ID E D} {c : ID} (d : D)
    (h : c ∉ nodeIds g) :
    (g.add_node c d).nodes = g.nodes ++ [(c, d)] ∧ (g.add_node c d).edges = g.edges := by
  have hcontains : ¬ g.contains_node c = true := by
    rw [contains_node_iff]; exact h
  rw [NodeGraph.add_node, if_neg hcontains]
  exact ⟨rfl, rfl⟩

theorem add_node_edges [DecidableEq ID] (g : NodeGraph ID E D) (c : ID) (d : D) :
    (g.add_node c d).edges = g.edges := by
  rw [NodeGraph.add_node]
  by_cases h : g.contains_node c = true
  · rw [if_pos h]
  · rw [if_neg h]

theorem nodeIds_add_node_fresh [DecidableEq ID] {g : NodeGraph ID E D} {c : ID}
    (d : D) (h : c ∉ nodeIds g) :
    nodeIds (g.add_node c d) = nodeIds g ++ [c] := by
  rw [nodeIds, (add_node_fresh d h).1, List.map_append]
  rfl

/-- A successful `add_child` on a fresh child with an existing parent appends
the node and the edge and reports `Ok`. -/
theorem add_child_ok [DecidableEq ID] {sg : SceneGraph ID} {c p : ID}
    (t : Transform) (hc : c ∉ nodeIds sg.graph) (hp : p ∈ nodeIds sg.graph) :
    sg.add_child c p t =
      ({ graph := { nodes := sg.graph.nodes ++ [(c, t)],
                    edges := sg.graph.edges ++ [(p, c, ())] },
         root_id := sg.root_id }, .ok ()) := by
  have hn := add_node_fresh (g := sg.graph) t hc
  have hpc : (sg.graph.add_node c t).contains_node p = true := by
    rw [contains_node_iff, nodeIds_add_node_fresh t hc]
    exact List.mem_append.2 (Or.inl hp)
  simp only [SceneGraph.add_child, NodeGraph.add_edge]
  rw [if_pos hpc]
  simp only [hn.1, hn.2]

/-- An `add_child` whose parent is genuinely absent (in particular distinct
from the child being inserted) fails with the descriptive error, having
already inserted the child node and added no edge. -/
theorem add_child_error [DecidableEq ID] {sg : SceneGraph ID} {c p : ID}
    (t : Transform) (hp : p ∉ nodeIds sg.graph) (hpc : p ≠ c) :
    sg.add_child c p t =
      ({ graph := sg.graph.add_node c t, root_id := sg.root_id },
        .error "Failed to add edge. Does the parent exist?") := by
  have hcontains : ¬ (sg.graph.add_node c t).contains_node p = true := by
    rw [contains_node_iff, nodeIds, NodeGraph.add_node]
    by_cases h : sg.graph.contains_node c = true
    · rw [if_pos h]
      intro hmem
      rcases List.mem_map.1 hmem with ⟨q, hq, hq1⟩
      rcases List.mem_map.1 hq with ⟨q0, hq0, hq01⟩
      by_cases hq0c : q0.1 = c
      · rw [← hq01] at hq1
        rw [if_pos hq0c] at hq1
        exact hpc hq1.symm
      · rw [← hq01] at hq1
        rw [if_neg hq0c] at hq1
        exact hp (hq1 ▸ List.mem_map.2 ⟨q0, hq0, rfl⟩)
    · rw [if_neg h]
      intro hmem
      rw [List.map_append, List.mem_append] at hmem
      rcases hmem with h1 | h1
      · exact hp h1
      · simp only [List.map_cons, List.map_nil, List.mem_singleton] at h1
        exact hpc h1
  simp only [SceneGraph.add_child, NodeGraph.add_edge]
  rw [if_neg hcontains]

/-- Any failing `add_child` call has nevertheless inserted the child node with
its local transform, and has added no edge. -/
theorem add_child_failed_inserted [DecidableEq ID] {sg : SceneGraph ID} {c p : ID}
    {t : Transform} {msg : String}
    (h : (sg.add_child c p t).2 = .error msg) :
    (sg.add_child c p t).1.graph.node_data c = some t ∧
    (sg.add_child c p t).1.graph.edges = sg.graph.edges := by
  by_cases hc : (sg.graph.add_node c t).contains_node p = true
  · exfalso
    simp only [SceneGraph.add_child, NodeGraph.add_edge] at h
    rw [if_pos hc] at h
    simp at h
  · have heq : sg.add_child c p t =
        ({ graph := sg.graph.add_node c t, root_id := sg.root_id },
          .error "Failed to add edge. Does the parent exist?") := by
      simp only [SceneGraph.add_child, NodeGraph.add_edge]
      rw [if_neg hc]
    rw [heq]
    exact ⟨add_node_node_data_self sg.graph c t, add_node_edges sg.graph c t⟩

/-! ### `goodOps` facts -/

theorem goodOps_append [DecidableEq ID] :
    ∀ (ops₁ ops₂ : List (ID × ID × Transform)) (seen : List ID),
      goodOps seen (ops₁ ++ ops₂) ↔
        goodOps seen ops₁ ∧ goodOps (seen ++ ops₁.map (fun op => op.1)) ops₂ := by
  intro ops₁
  induction ops₁ with
  | nil =>
    intro ops₂ seen
    simp [goodOps]
  | cons op ops ih =>
    intro ops₂ seen
    simp only [List.cons_append, goodOps, List.map_cons, List.append_eq]
    rw [ih]
    simp only [List.append_assoc, List.singleton_append]
    tauto

theorem goodOps_parent_mem [DecidableEq ID] :
    ∀ (ops : List (ID × ID × Transform)) (seen : List ID),
      goodOps seen ops → ∀ op ∈ ops, op.2.1 ∈ seen ++ ops.map (fun op => op.1) := by
  intro ops
  induction ops with
  | nil => intro seen _ op hop; simp at hop
  | cons op0 ops ih =>
    intro seen h op hop
    rcases List.mem_cons.1 hop with h1 | h1
    · subst h1
      exact List.mem_append.2 (Or.inl h.1)
    · have := ih (seen ++ [op0.1]) h.2.2 op h1
      rw [List.append_assoc] at this
      simpa using this

theorem goodOps_child_not_mem [DecidableEq ID] :
    ∀ (ops : List (ID × ID × Transform)) (seen : List ID),
      goodOps seen ops → ∀ op ∈ ops, op.1 ∉ seen := by
  intro ops
  induction ops with
  | nil => intro seen _ op hop; simp at hop
  | cons op0 ops ih =>
    intro seen h op hop
    rcases List.mem_cons.1 hop with h1 | h1
    · subst h1
      exact h.2.1
    · intro hmem
      exact ih (seen ++ [op0.1]) h.2.2 op h1 (List.mem_append.2 (Or.inl hmem))

theorem goodOps_keys_nodup [DecidableEq ID] :
    ∀ (ops : List (ID × ID × Transform)) (seen : List ID),
      seen.Nodup → goodOps seen ops → (seen ++ ops.map (fun op => op.1)).Nodup := by
  intro ops
  induction ops with
  | nil => intro seen hs _; simpa using hs
  | cons op0 ops ih =>
    intro seen hs h
    have hs1 : (seen ++ [op0.1]).Nodup := by
      rw [List.nodup_append]
      refine ⟨hs, List.nodup_singleton _, ?_⟩
      intro a ha hb
      rw [List.mem_singleton] at hb
      exact h.2.1 (hb ▸ ha)
    have := ih (seen ++ [op0.1]) hs1 h.2.2
    rw [List.append_assoc] at this
    simpa using this

/-! ### Shape of built hierarchies -/

theorem new_graph_nodes [DecidableEq ID] (root : ID) :
    (SceneGraph.new root).graph.nodes = [(root, Transform.new 0 0 0)] := rfl

theorem applyOps_good [DecidableEq ID] :
    ∀ (ops : List (ID × ID × Transform)) (sg : SceneGraph ID),
      goodOps (nodeIds sg.graph) ops →
      (applyOps sg ops).graph.nodes
          = sg.graph.nodes ++ ops.map (fun op => (op.1, op.2.2)) ∧
      (applyOps sg ops).graph.edges
          = sg.graph.edges ++ ops.map (fun op => (op.2.1, op.1, ())) ∧
      (applyOps sg ops).root_id = sg.root_id ∧
      opsSucceed sg ops := by
  intro ops
  induction ops with
  | nil =>
    intro sg _
    simp [applyOps, opsSucceed]
  | cons op ops ih =>
    intro sg h
    obtain ⟨hp, hcfresh, hrest⟩ := h
    have hstep := add_child_ok op.2.2 hcfresh hp
    have h1 : (sg.add_child op.1 op.2.1 op.2.2).1
        = { graph := { nodes := sg.graph.nodes ++ [(op.1, op.2.2)],
                       edges := sg.graph.edges ++ [(op.2.1, op.1, ())] },
            root_id := sg.root_id } := by rw [hstep]
    have hids : nodeIds (sg.add_child op.1 op.2.1 op.2.2).1.graph
        = nodeIds sg.graph ++ [op.1] := by
      rw [h1, nodeIds]
      show (sg.graph.nodes ++ [(op.1, op.2.2)]).map Prod.fst = _
      rw [List.map_append]
      rfl
    have hrest2 : goodOps (nodeIds (sg.add_child op.1 op.2.1 op.2.2).1.graph) ops := by
      rw [hids]
      exact hrest
    obtain ⟨ihn, ihe, ihr, ihs⟩ := ih _ hrest2
    refine ⟨?_, ?_, ?_, ?_⟩
    · show (applyOps (sg.add_child op.1 op.2.1 op.2.2).1 ops).graph.nodes = _
      rw [ihn, h1, List.map_cons]
      show (sg.graph.nodes ++ [(op.1, op.2.2)]) ++ _ = _
      rw [List.append_assoc]
      rfl
    · show (applyOps (sg.add_child op.1 op.2.1 op.2.2).1 ops).graph.edges = _
      rw [ihe, h1, List.map_cons]
      show (sg.graph.edges ++ [(op.2.1, op.1, ())]) ++ _ = _
      rw [List.append_assoc]
      rfl
    · show (applyOps (sg.add_child op.1 op.2.1 op.2.2).1 ops).root_id = _
      rw [ihr, h1]
    · refine ⟨?_, ihs⟩
      rw [hstep]

theorem build_shape [DecidableEq ID] (root : ID) (ops : List (ID × ID × Transform))
    (h : goodOps [root] ops) :
    (build root ops).graph.nodes
        = (root, Transform.new 0 0 0) :: ops.map (fun op => (op.1, op.2.2)) ∧
    (build root ops).graph.edges = ops.map (fun op => (op.2.1, op.1, ())) ∧
    (build root ops).root_id = root ∧
    opsSucceed (SceneGraph.new root) ops := by
  have hids : nodeIds (SceneGraph.new root).graph = [root] := by
    rw [nodeIds, new_graph_nodes]
    rfl
  obtain ⟨hn, he, hr, hs⟩ := applyOps_good ops (SceneGraph.new root) (by rw [hids]; exact h)
  simp only [build]
  refine ⟨?_, ?_, ?_, hs⟩
  · rw [hn, new_graph_nodes]
    rfl
  · rw [he]
    rfl
  · rw [hr]
    rfl

theorem nodeIds_build [DecidableEq ID] {root : ID} {ops : List (ID × ID × Transform)}
    (h : goodOps [root] ops) :
    nodeIds (build root ops).graph = root :: ops.map (fun op => op.1) := by
  rw [nodeIds, (build_shape root ops h).1, List.map_cons, List.map_map]
  rfl

theorem build_keys_nodup [DecidableEq ID] {root : ID} {ops : List (ID × ID × Transform)}
    (h : goodOps [root] ops) :
    (root :: ops.map (fun op => op.1)).Nodup := by
  have := goodOps_keys_nodup ops [root] (List.nodup_singleton root) h
  simpa using this

theorem build_node_data_root [DecidableEq ID] {root : ID}
    {ops : List (ID × ID × Transform)} (h : goodOps [root] ops) :
    (build root ops).graph.node_data root = some (Transform.new 0 0 0) := by
  rw [NodeGraph.node_data, (build_shape root ops h).1]
  simp [alist_get]

theorem build_node_data_child [DecidableEq ID] {root : ID}
    {ops : List (ID × ID × Transform)} (h : goodOps [root] ops)
    {op : ID × ID × Transform} (hop : op ∈ ops) :
    (build root ops).graph.node_data op.1 = some op.2.2 := by
  rw [NodeGraph.node_data, (build_shape root ops h).1]
  apply mem_alist_get
  · have hk : ((root, Transform.new 0 0 0) :: ops.map fun op => (op.1, op.2.2)).map Prod.fst
        = root :: ops.map (fun op => op.1) := by
      rw [List.map_cons, List.map_map]
      rfl
    rw [hk]
    exact build_keys_nodup h
  · exact List.mem_cons_of_mem _ (List.mem_map.2 ⟨op, hop, rfl⟩)

theorem childrenOf_of_edges [DecidableEq ID] {g : NodeGraph ID Unit Transform}
    {ops : List (ID × ID × Transform)}
    (h : g.edges = ops.map (fun op => (op.2.1, op.1, ()))) (n : ID) :
    childrenOf g n = ops.filterMap (fun op => if op.2.1 = n then some op.1 else none) := by
  rw [childrenOf, NodeGraph.outgoing, h, List.filterMap_map, List.map_filterMap]
  congr 1
  funext op
  by_cases hop : op.2.1 = n <;> simp [hop]

theorem mem_childrenOf_build [DecidableEq ID] {root : ID}
    {ops : List (ID × ID × Transform)} (h : goodOps [root] ops) {n x : ID} :
    x ∈ childrenOf (build root ops).graph n ↔
      ∃ op ∈ ops, op.2.1 = n ∧ op.1 = x := by
  rw [childrenOf_of_edges (build_shape root ops h).2.1 n, List.mem_filterMap]
  constructor
  · rintro ⟨op, hop, hif⟩
    by_cases hop2 : op.2.1 = n
    · rw [if_pos hop2] at hif
      exact ⟨op, hop, hop2, by injection hif⟩
    · rw [if_neg hop2] at hif
      exact absurd hif (by simp)
  · rintro ⟨op, hop, hop2, hop1⟩
    exact ⟨op, hop, by rw [if_pos hop2, hop1]⟩

/-! ### Fuel stability and one-leaf extension of the visit list -/

theorem flatMap_congr_mem {β : Type u} {γ : Type v} {l : List β} {f h : β → List γ}
    (H : ∀ a ∈ l, f a = h a) : l.flatMap f = l.flatMap h := by
  induction l with
  | nil => rfl
  | cons a l ih =>
    rw [List.flatMap_cons, List.flatMap_cons, H a (List.mem_cons_self a l),
      ih (fun b hb => H b (List.mem_cons_of_mem _ hb))]

theorem Bounded_mono [DecidableEq ID] {g : NodeGraph ID Unit Transform} :
    ∀ {x : ID} {d : Nat}, Bounded g x d → ∀ {e : Nat}, d ≤ e → Bounded g x e := by
  intro x d hb
  induction hb with
  | @step x d hch ih =>
    intro e hde
    cases e with
    | zero => exact absurd hde (by omega)
    | succ e =>
      exact Bounded.step (fun c hc => ih c hc (Nat.le_of_succ_le_succ hde))

theorem visitIds_fuel_eq [DecidableEq ID] {g : NodeGraph ID Unit Transform} :
    ∀ {x : ID} {d : Nat}, Bounded g x d →
      ∀ {f₁ f₂ : Nat}, d ≤ f₁ → d ≤ f₂ → visitIds g f₁ x = visitIds g f₂ x := by
  intro x d hb
  induction hb with
  | @step x d hch ih =>
    intro f₁ f₂ h1 h2
    cases f₁ with
    | zero => exact absurd h1 (by omega)
    | succ f₁ =>
      cases f₂ with
      | zero => exact absurd h2 (by omega)
      | succ f₂ =>
        cases hdata : g.node_data x with
        | none => rw [visitIds_succ_none hdata, visitIds_succ_none hdata]
        | some lt =>
          rw [visitIds_succ_some hdata, visitIds_succ_some hdata]
          congr 1
          exact flatMap_congr_mem
            (fun ch hch2 => ih ch hch2 (Nat.le_of_succ_le_succ h1) (Nat.le_of_succ_le_succ h2))

theorem visitIds_leaf [DecidableEq ID] {g' : NodeGraph ID Unit Transform} {c : ID}
    {t : Transform} (hdata : g'.node_data c = some t) (hch : childrenOf g' c = [])
    {f : Nat} (hf : 1 ≤ f) : visitIds g' f c = [c] := by
  cases f with
  | zero => exact absurd hf (by omega)
  | succ f =>
    rw [visitIds_succ_some hdata, hch]
    rfl

/-- Pointwise one-element extensions of the blocks of a disjoint union
combine to a one-element extension of the union. -/
theorem flatMap_extend_perm [DecidableEq ID] {p c : ID} :
    ∀ (cs : List ID) (F G : ID → List ID),
      (∀ ch ∈ cs, List.Perm (F ch) (G ch ++ (if p ∈ G ch then [c] else []))) →
      (cs.flatMap G).Nodup →
      List.Perm (cs.flatMap F)
        (cs.flatMap G ++ (if p ∈ cs.flatMap G then [c] else [])) := by
  intro cs
  induction cs with
  | nil => intro F G _ _; simp
  | cons a cs ih =>
    intro F G hpt nd
    rw [List.flatMap_cons] at nd ⊢
    rw [List.flatMap_cons]
    have pieces := List.nodup_append.mp nd
    have h1 : List.Perm (F a) (G a ++ (if p ∈ G a then [c] else [])) :=
      hpt a (List.mem_cons_self a cs)
    have h2 : List.Perm (cs.flatMap F)
        (cs.flatMap G ++ (if p ∈ cs.flatMap G then [c] else [])) :=
      ih F G (fun ch hch => hpt ch (List.mem_cons_of_mem _ hch)) pieces.2.1
    by_cases hpa : p ∈ G a
    · have hprest : p ∉ cs.flatMap G := fun hmem => pieces.2.2 hpa hmem
      rw [if_pos hpa] at h1
      rw [if_neg hprest, List.append_nil] at h2
      rw [if_pos (List.mem_append.2 (Or.inl hpa))]
      have p3 : List.Perm ((G a ++ [c]) ++ cs.flatMap G)
          (G a ++ (cs.flatMap G ++ [c])) := by
        rw [List.append_assoc]
        exact List.Perm.append_left (G a) List.perm_append_comm
      have p4 := (h1.append h2).trans p3
      rw [← List.append_assoc] at p4
      exact p4
    · rw [if_neg hpa, List.append_nil] at h1
      by_cases hprest : p ∈ cs.flatMap G
      · rw [if_pos hprest] at h2
        rw [if_pos (List.mem_append.2 (Or.inr hprest))]
        have p4 := h1.append h2
        rw [← List.append_assoc] at p4
        exact p4
      · rw [if_neg hprest, List.append_nil] at h2
        rw [if_neg (fun hmem => (List.mem_append.1 hmem).elim hpa hprest), List.append_nil]
        exact h1.append h2

/-- Appending one fresh leaf `c` under an existing node `p` extends the set of
visited identifiers by exactly `c` when the traversal from `x` reaches `p`,
and leaves it unchanged otherwise. -/
theorem visitIds_extend [DecidableEq ID] {g g' : NodeGraph ID Unit Transform}
    {p c : ID} {t : Transform}
    (HA : ∀ n, n ≠ c → g'.node_data n = g.node_data n)
    (HB : ∀ n, childrenOf g' n = childrenOf g n ++ (if n = p then [c] else []))
    (HCdata : g'.node_data c = some t)
    (HCch : childrenOf g' c = [])
    (HD : ∀ n, c ∉ childrenOf g n) :
    ∀ {x : ID} {d : Nat}, Bounded g x d →
      ∀ {f : Nat}, d + 1 ≤ f → x ≠ c → (visitIds g f x).Nodup →
        List.Perm (visitIds g' f x)
          (visitIds g f x ++ (if p ∈ visitIds g f x then [c] else [])) := by
  intro x d hb
  induction hb with
  | @step x e hch ih =>
    intro f hf hxc nd
    cases f with
    | zero => exact absurd hf (by omega)
    | succ f =>
      have hf' : e + 1 ≤ f := by omega
      cases hdata : g.node_data x with
      | none =>
        rw [visitIds_succ_none hdata]
        rw [visitIds_succ_none (show g'.node_data x = none by rw [HA x hxc]; exact hdata)]
        simp
      | some lt =>
        have hdata' : g'.node_data x = some lt := by rw [HA x hxc]; exact hdata
        rw [visitIds_succ_some hdata']
        rw [visitIds_succ_some hdata] at nd ⊢
        rw [HB x]
        have ndflat : ((childrenOf g x).flatMap (fun ch => visitIds g f ch)).Nodup :=
          (List.nodup_cons.mp nd).2
        have hxnot : x ∉ (childrenOf g x).flatMap (fun ch => visitIds g f ch) :=
          (List.nodup_cons.mp nd).1
        have hblocks : ∀ ch ∈ childrenOf g x,
            List.Perm (visitIds g' f ch)
              (visitIds g f ch ++ (if p ∈ visitIds g f ch then [c] else [])) := by
          intro ch hchmem
          have hchc : ch ≠ c := fun hcc => HD x (hcc ▸ hchmem)
          have ndch : (visitIds g f ch).Nodup :=
            (List.nodup_flatMap.mp ndflat).1 ch hchmem
          exact ih ch hchmem hf' hchc ndch
        have hflat := flatMap_extend_perm (childrenOf g x)
          (fun ch => visitIds g' f ch) (fun ch => visitIds g f ch) hblocks ndflat
        by_cases hxp : x = p
        · rw [if_pos hxp, List.flatMap_append]
          have hcflat : ([c].flatMap fun ch => visitIds g' f ch) = [c] := by
            rw [List.flatMap_cons, visitIds_leaf HCdata HCch (show 1 ≤ f by omega)]
            rfl
          rw [hcflat]
          have hpnot : p ∉ (childrenOf g x).flatMap (fun ch => visitIds g f ch) :=
            hxp ▸ hxnot
          rw [if_neg hpnot, List.append_nil] at hflat
          have hpm : p ∈ x :: (childrenOf g x).flatMap (fun ch => visitIds g f ch) :=
            hxp ▸ List.mem_cons_self x _
          rw [if_pos hpm, List.cons_append]
          exact (hflat.append (List.Perm.refl [c])).cons x
        · rw [if_neg hxp, List.append_nil]
          have hmemiff : (p ∈ x :: (childrenOf g x).flatMap (fun ch => visitIds g f ch))
              ↔ p ∈ (childrenOf g x).flatMap (fun ch => visitIds g f ch) := by
            rw [List.mem_cons]
            constructor
            · rintro (h1 | h1)
              · exact absurd h1.symm hxp
              · exact h1
            · exact Or.inr
          by_cases hpm : p ∈ (childrenOf g x).flatMap (fun ch => visitIds g f ch)
          · rw [if_pos hpm] at hflat
            rw [if_pos (hmemiff.mpr hpm), List.cons_append]
            exact hflat.cons x
          · rw [if_neg hpm, List.append_nil] at hflat
            rw [if_neg (fun hm => hpm (hmemiff.mp hm)), List.append_nil]
            exact hflat.cons x

/-- Appending one fresh leaf raises the depth certificate by at most one. -/
theorem Bounded_extend [DecidableEq ID] {g g' : NodeGraph ID Unit Transform} {p c : ID}
    (HB : ∀ n, childrenOf g' n = childrenOf g n ++ (if n = p then [c] else []))
    (HCch : childrenOf g' c = [])
    (HD : ∀ n, c ∉ childrenOf g n) :
    ∀ {x : ID} {d : Nat}, Bounded g x d → Bounded g' x (d + 1) := by
  intro x d hb
  induction hb with
  | @step x e hch ih =>
    apply Bounded.step
    intro ch hchmem
    rw [HB x] at hchmem
    rcases List.mem_append.1 hchmem with h1 | h1
    · exact ih ch h1
    · by_cases hxp : x = p
      · rw [if_pos hxp, List.mem_singleton] at h1
        subst h1
        exact Bounded.step (fun c2 hc2 => absurd (HCch ▸ hc2) (List.not_mem_nil c2))
      · rw [if_neg hxp] at h1
        exact absurd h1 (List.not_mem_nil ch)

/-! ### Traversal coverage of built hierarchies -/

theorem build_nodes_length [DecidableEq ID] {root : ID}
    {ops : List (ID × ID × Transform)} (h : goodOps [root] ops) :
    (build root ops).graph.nodes.length = ops.length + 1 := by
  rw [(build_shape root ops h).1]
  simp

/-- For every hierarchy built through the API, the number of stored nodes
bounds the depth of the tree, and the depth-first traversal visits exactly the
stored identifiers, each once. -/
theorem build_visit [DecidableEq ID] (root : ID) :
    ∀ (ops : List (ID × ID × Transform)), goodOps [root] ops →
      Bounded (build root ops).graph root (ops.length + 1) ∧
      List.Perm (visitIds (build root ops).graph (ops.length + 1) root)
        (root :: ops.map (fun op => op.1)) := by
  intro ops
  induction ops using List.reverseRecOn with
  | nil =>
    intro _
    have hch : childrenOf (build root []).graph root = [] := rfl
    constructor
    · exact Bounded.step (fun ch hc => absurd (hch ▸ hc) (List.not_mem_nil ch))
    · have hdata : (build root []).graph.node_data root = some (Transform.new 0 0 0) := by
        show alist_get [(root, Transform.new 0 0 0)] root = _
        simp [alist_get]
      rw [visitIds_succ_some hdata, hch]
      exact List.Perm.refl _
  | append_singleton ops op ih =>
    intro hgood
    obtain ⟨h1, h2⟩ := (goodOps_append ops [op] [root]).mp hgood
    simp only [List.singleton_append, goodOps] at h2
    obtain ⟨hb, ihperm⟩ := ih h1
    have hseen : nodeIds (build root ops).graph = root :: ops.map (fun op => op.1) :=
      nodeIds_build h1
    have hcnotseen : op.1 ∉ root :: ops.map (fun op => op.1) := h2.2.1
    have hpseen : op.2.1 ∈ root :: ops.map (fun op => op.1) := h2.1
    have hrc : root ≠ op.1 := fun hr => hcnotseen (hr ▸ List.mem_cons_self root _)
    have hpc : op.2.1 ≠ op.1 := fun hr => hcnotseen (hr ▸ hpseen)
    have hnodes : (build root (ops ++ [op])).graph.nodes
        = (build root ops).graph.nodes ++ [(op.1, op.2.2)] := by
      rw [(build_shape root ops h1).1, (build_shape root (ops ++ [op]) hgood).1,
        List.map_append, List.cons_append]
      rfl
    have HA : ∀ n, n ≠ op.1 →
        (build root (ops ++ [op])).graph.node_data n
          = (build root ops).graph.node_data n := by
      intro n hn
      rw [NodeGraph.node_data, NodeGraph.node_data, hnodes,
        alist_get_append_singleton_ne hn]
    have HCdata : (build root (ops ++ [op])).graph.node_data op.1 = some op.2.2 := by
      rw [NodeGraph.node_data, hnodes]
      have hnone : alist_get (build root ops).graph.nodes op.1 = none := by
        rw [alist_get_eq_none_iff]
        intro hmem
        exact hcnotseen (hseen ▸ hmem)
      rw [alist_get_append_right hnone]
      simp [alist_get]
    have HB : ∀ n, childrenOf (build root (ops ++ [op])).graph n
        = childrenOf (build root ops).graph n ++ (if n = op.2.1 then [op.1] else []) := by
      intro n
      rw [childrenOf_of_edges (build_shape root (ops ++ [op]) hgood).2.1 n,
        childrenOf_of_edges (build_shape root ops h1).2.1 n,
        List.filterMap_append]
      congr 1
      by_cases hnp : n = op.2.1
      · rw [if_pos hnp, List.filterMap_cons]
        rw [if_pos hnp.symm]
        rfl
      · rw [if_neg hnp, List.filterMap_cons]
        rw [if_neg (fun hx => hnp hx.symm)]
        rfl
    have HD : ∀ n, op.1 ∉ childrenOf (build root ops).graph n := by
      intro n hmem
      rcases (mem_childrenOf_build h1).mp hmem with ⟨op', hop', _, hop1⟩
      exact hcnotseen (List.mem_cons_of_mem _ (List.mem_map.2 ⟨op', hop', hop1⟩))
    have HCch : childrenOf (build root (ops ++ [op])).graph op.1 = [] := by
      rw [HB op.1, if_neg (fun hx => hpc hx.symm), List.append_nil]
      rw [List.eq_nil_iff_forall_not_mem]
      intro x hx
      rcases (mem_childrenOf_build h1).mp hx with ⟨op', hop', hopp, _⟩
      have := goodOps_parent_mem ops [root] h1 op' hop'
      rw [List.singleton_append] at this
      exact hcnotseen (hopp ▸ this)
    have hb2 : Bounded (build root (ops ++ [op])).graph root (ops.length + 1 + 1) :=
      Bounded_extend HB HCch HD hb
    have hstab : visitIds (build root ops).graph (ops.length + 2) root
        = visitIds (build root ops).graph (ops.length + 1) root :=
      visitIds_fuel_eq hb (by omega) (by omega)
    have ndN2 : (visitIds (build root ops).graph (ops.length + 2) root).Nodup := by
      rw [hstab]
      exact (ihperm.nodup_iff).mpr (build_keys_nodup h1)
    have hK := visitIds_extend HA HB HCdata HCch HD hb
      (f := ops.length + 2) (by omega) hrc ndN2
    rw [hstab] at hK
    have hpm : op.2.1 ∈ visitIds (build root ops).graph (ops.length + 1) root :=
      (ihperm.mem_iff).mpr hpseen
    rw [if_pos hpm] at hK
    refine ⟨?_, ?_⟩
    · have hlen : (ops ++ [op]).length + 1 = ops.length + 1 + 1 := by simp
      rw [hlen]
      exact hb2
    · have hlen : (ops ++ [op]).length + 1 = ops.length + 2 := by simp
      rw [hlen]
      refine hK.trans ?_
      refine (ihperm.append (List.Perm.refl [op.1])).trans ?_
      rw [List.map_append, List.cons_append]
      exact List.Perm.refl _

/-! ### The computed table on built hierarchies -/

theorem aggregate_identity :
    (Transform.new 0 0 0).aggregate (Transform.new 0 0 0) = Transform.new 0 0 0 := by
  simp [Transform.aggregate, Transform.new]

theorem calc_eq_visitList [DecidableEq ID] {root : ID}
    {ops : List (ID × ID × Transform)} (h : goodOps [root] ops) :
    (build root ops).calculate_global_transforms
      = visitList (build root ops).graph (ops.length + 1) root (Transform.new 0 0 0) := by
  obtain ⟨hb, hperm⟩ := build_visit root ops h
  have hnd : (visitIds (build root ops).graph (ops.length + 1) root).Nodup :=
    (hperm.nodup_iff).mpr (build_keys_nodup h)
  rw [SceneGraph.calculate_global_transforms]
  rw [(build_shape root ops h).2.2.1, build_node_data_root h, build_nodes_length h]
  rw [Option.getD_some]
  rw [traverse_eq_append_visitList (build root ops).graph (ops.length + 1) root
    (Transform.new 0 0 0) [] hnd (fun k _ => rfl)]
  rw [List.nil_append]

/-- Every entry of the visit list is either the start node aggregated onto the
inherited transform, or a child of an earlier-visited node aggregated onto
that node's recorded global transform. -/
theorem visitList_sound [DecidableEq ID] (g : NodeGraph ID Unit Transform) :
    ∀ (fuel : Nat) (x : ID) (cur : Transform) (n : ID) (v : Transform),
      (n, v) ∈ visitList g fuel x cur →
      (n = x ∧ ∃ lt, g.node_data x = some lt ∧ v = lt.aggregate cur) ∨
      (∃ q vq lt, (q, vq) ∈ visitList g fuel x cur ∧ n ∈ childrenOf g q ∧
        g.node_data n = some lt ∧ v = lt.aggregate vq) := by
  intro fuel
  induction fuel with
  | zero =>
    intro x cur n v h
    rw [visitList_zero] at h
    exact absurd h (List.not_mem_nil _)
  | succ fuel ih =>
    intro x cur n v h
    cases hdata : g.node_data x with
    | none =>
      rw [visitList_succ_none cur hdata] at h
      exact absurd h (List.not_mem_nil _)
    | some lt =>
      rw [visitList_succ_some cur hdata] at h
      rcases List.mem_cons.1 h with h1 | h1
      · left
        have hn : n = x := congrArg Prod.fst h1
        have hv : v = lt.aggregate cur := congrArg Prod.snd h1
        exact ⟨hn, lt, rfl, hv⟩
      · rcases List.mem_flatMap.1 h1 with ⟨ch, hchmem, hmem⟩
        rcases ih ch (lt.aggregate cur) n v hmem with
          ⟨hn, lt2, hdata2, hv⟩ | ⟨q, vq, lt2, hq, hcq, hd2, hv⟩
        · right
          refine ⟨x, lt.aggregate cur, lt2, ?_, ?_, ?_, hv⟩
          · rw [visitList_succ_some cur hdata]
            exact List.mem_cons_self _ _
          · rw [hn]
            exact hchmem
          · rw [hn]
            exact hdata2
        · right
          refine ⟨q, vq, lt2, ?_, hcq, hd2, hv⟩
          rw [visitList_succ_some cur hdata]
          exact List.mem_cons_of_mem _ (List.mem_flatMap.2 ⟨ch, hchmem, hq⟩)

/-- The four characterizing properties of the computed global-transform table
of a built hierarchy: its keys are exactly the stored identifiers, without
duplicates; the root is mapped to the identity transform; and every child is
mapped to its local transform aggregated with its parent's entry. -/
theorem calc_facts [DecidableEq ID] {root : ID} {ops : List (ID × ID × Transform)}
    (h : goodOps [root] ops) :
    ((build root ops).calculate_global_transforms.map Prod.fst).Perm
        (root :: ops.map (fun op => op.1)) ∧
    ((build root ops).calculate_global_transforms.map Prod.fst).Nodup ∧
    alist_get (build root ops).calculate_global_transforms root
        = some (Transform.new 0 0 0) ∧
    ∀ op ∈ ops,
      alist_get (build root ops).calculate_global_transforms op.1
        = some (op.2.2.aggregate
            ((alist_get (build root ops).calculate_global_transforms op.2.1).getD
              (Transform.new 0 0 0))) := by
  obtain ⟨hb, hperm⟩ := build_visit root ops h
  have hkeys : (build root ops).calculate_global_transforms.map Prod.fst
      = visitIds (build root ops).graph (ops.length + 1) root := by
    rw [calc_eq_visitList h, visitList_map_fst]
  have hkperm : ((build root ops).calculate_global_transforms.map Prod.fst).Perm
      (root :: ops.map (fun op => op.1)) := by
    rw [hkeys]
    exact hperm
  have hknd : ((build root ops).calculate_global_transforms.map Prod.fst).Nodup :=
    (hkperm.nodup_iff).mpr (build_keys_nodup h)
  have hroot : alist_get (build root ops).calculate_global_transforms root
      = some (Transform.new 0 0 0) := by
    rw [calc_eq_visitList h,
      visitList_succ_some (Transform.new 0 0 0) (build_node_data_root h)]
    rw [aggregate_identity]
    simp [alist_get]
  refine ⟨hkperm, hknd, hroot, ?_⟩
  intro op hop
  have hcmem : op.1 ∈ (build root ops).calculate_global_transforms.map Prod.fst :=
    (hkperm.mem_iff).mpr (List.mem_cons_of_mem _ (List.mem_map.2 ⟨op, hop, rfl⟩))
  obtain ⟨v, hv⟩ := Option.isSome_iff_exists.mp (alist_get_isSome_iff.mpr hcmem)
  have hpair : (op.1, v) ∈ (build root ops).calculate_global_transforms :=
    alist_get_mem hv
  rw [calc_eq_visitList h] at hpair
  rcases visitList_sound (build root ops).graph (ops.length + 1) root
      (Transform.new 0 0 0) op.1 v hpair with
    ⟨hn, _, _, _⟩ | ⟨q, vq, lt2, hq, hcq, hd2, hval⟩
  · exfalso
    have : root ∉ ops.map (fun op => op.1) := (List.nodup_cons.mp (build_keys_nodup h)).1
    exact this (hn ▸ List.mem_map.2 ⟨op, hop, rfl⟩)
  · rcases (mem_childrenOf_build h).mp hcq with ⟨op', hop', hopq, hopc⟩
    have hchildnd : (ops.map (fun op => op.1)).Nodup :=
      (List.nodup_cons.mp (build_keys_nodup h)).2
    have hopeq : op' = op :=
      List.inj_on_of_nodup_map hchildnd hop' hop hopc
    have hqeq : q = op.2.1 := by rw [← hopq, hopeq]
    have hlt2 : lt2 = op.2.2 := by
      have := build_node_data_child h hop
      rw [hd2] at this
      exact Option.some.inj this
    have hvq : alist_get (build root ops).calculate_global_transforms q = some vq := by
      apply mem_alist_get hknd
      rw [calc_eq_visitList h]
      exact hq
    rw [hv, ← hqeq, hvq, hval, hlt2]
    rfl

/-! ### The reference table and uniqueness of the computed values -/

theorem specGlobals_snoc [DecidableEq ID] (root : ID)
    (ops : List (ID × ID × Transform)) (op : ID × ID × Transform) :
    specGlobals root (ops ++ [op]) = specGlobals root ops
      ++ [(op.1, op.2.2.aggregate
            ((alist_get (specGlobals root ops) op.2.1).getD (Transform.new 0 0 0)))] := by
  rw [specGlobals, specGlobals, List.foldl_append]
  rfl

theorem specGlobals_keys [DecidableEq ID] (root : ID) :
    ∀ (ops : List (ID × ID × Transform)),
      (specGlobals root ops).map Prod.fst = root :: ops.map (fun op => op.1) := by
  intro ops
  induction ops using List.reverseRecOn with
  | nil => rfl
  | append_singleton ops op ih =>
    rw [specGlobals_snoc, List.map_append, ih, List.map_append, List.cons_append]
    rfl

theorem specGlobals_root [DecidableEq ID] (root : ID) :
    ∀ (ops : List (ID × ID × Transform)),
      alist_get (specGlobals root ops) root = some (Transform.new 0 0 0) := by
  intro ops
  induction ops using List.reverseRecOn with
  | nil => simp [specGlobals, alist_get]
  | append_singleton ops op ih =>
    rw [specGlobals_snoc, alist_get_append_left ih]

theorem specGlobals_child [DecidableEq ID] {root : ID} :
    ∀ (ops : List (ID × ID × Transform)), goodOps [root] ops → ∀ op ∈ ops,
      alist_get (specGlobals root ops) op.1
        = some (op.2.2.aggregate
            ((alist_get (specGlobals root ops) op.2.1).getD (Transform.new 0 0 0))) := by
  intro ops
  induction ops using List.reverseRecOn with
  | nil =>
    intro _ op hop
    exact absurd hop (List.not_mem_nil op)
  | append_singleton ops op0 ih =>
    intro hgood op hop
    obtain ⟨h1, h2⟩ := (goodOps_append ops [op0] [root]).mp hgood
    simp only [List.singleton_append, goodOps] at h2
    have hp0seen : op0.2.1 ∈ root :: ops.map (fun op => op.1) := h2.1
    have hc0seen : op0.1 ∉ root :: ops.map (fun op => op.1) := h2.2.1
    have hstable : ∀ k, k ∈ root :: ops.map (fun op => op.1) →
        alist_get (specGlobals root (ops ++ [op0])) k
          = alist_get (specGlobals root ops) k := by
      intro k hk
      rw [specGlobals_snoc]
      exact alist_get_append_singleton_ne (fun hkc => hc0seen (hkc ▸ hk))
    rcases List.mem_append.1 hop with hmem | hmem
    · have hcseen : op.1 ∈ root :: ops.map (fun op => op.1) :=
        List.mem_cons_of_mem _ (List.mem_map.2 ⟨op, hmem, rfl⟩)
      have hpseen : op.2.1 ∈ root :: ops.map (fun op => op.1) := by
        have := goodOps_parent_mem ops [root] h1 op hmem
        rw [List.singleton_append] at this
        exact this
      rw [hstable op.1 hcseen, hstable op.2.1 hpseen]
      exact ih h1 op hmem
    · have hopeq : op = op0 := by
        rw [List.mem_singleton] at hmem
        exact hmem
      subst hopeq
      have hnone : alist_get (specGlobals root ops) op.1 = none := by
        rw [alist_get_eq_none_iff, specGlobals_keys]
        exact hc0seen
      have hpne : op.2.1 ≠ op.1 := by
        intro hkc
        rw [hkc] at hp0seen
        exact hc0seen hp0seen
      rw [specGlobals_snoc, alist_get_append_right hnone,
        alist_get_append_singleton_ne hpne]
      simp [alist_get]

/-- Two key-complete tables that satisfy the root equation and every child
equation of a well-formed build agree on every lookup: the equations determine
the table. -/
theorem global_map_unique [DecidableEq ID] {root : ID} :
    ∀ (ops : List (ID × ID × Transform)), goodOps [root] ops →
      ∀ (m₁ m₂ : List (ID × Transform)),
        (m₁.map Prod.fst).Perm (root :: ops.map (fun op => op.1)) →
        (m₂.map Prod.fst).Perm (root :: ops.map (fun op => op.1)) →
        alist_get m₁ root = some (Transform.new 0 0 0) →
        alist_get m₂ root = some (Transform.new 0 0 0) →
        (∀ op ∈ ops, alist_get m₁ op.1
          = some (op.2.2.aggregate ((alist_get m₁ op.2.1).getD (Transform.new 0 0 0)))) →
        (∀ op ∈ ops, alist_get m₂ op.1
          = some (op.2.2.aggregate ((alist_get m₂ op.2.1).getD (Transform.new 0 0 0)))) →
        ∀ k, alist_get m₁ k = alist_get m₂ k := by
  intro ops
  induction ops using List.reverseRecOn with
  | nil =>
    intro _ m₁ m₂ hk1 hk2 hr1 hr2 _ _ k
    by_cases hk : k = root
    · rw [hk, hr1, hr2]
    · have h1 : alist_get m₁ k = none := by
        rw [alist_get_eq_none_iff, hk1.mem_iff]
        simp [hk]
      have h2 : alist_get m₂ k = none := by
        rw [alist_get_eq_none_iff, hk2.mem_iff]
        simp [hk]
      rw [h1, h2]
  | append_singleton ops op0 ih =>
    intro hgood m₁ m₂ hk1 hk2 hr1 hr2 he1 he2 k
    obtain ⟨h1, h2⟩ := (goodOps_append ops [op0] [root]).mp hgood
    simp only [List.singleton_append, goodOps] at h2
    have hp0seen : op0.2.1 ∈ root :: ops.map (fun op => op.1) := h2.1
    have hc0seen : op0.1 ∉ root :: ops.map (fun op => op.1) := h2.2.1
    have hseennd : (root :: (ops ++ [op0]).map (fun op => op.1)).Nodup :=
      build_keys_nodup hgood
    have hnd1 : (m₁.map Prod.fst).Nodup := (hk1.nodup_iff).mpr hseennd
    have hnd2 : (m₂.map Prod.fst).Nodup := (hk2.nodup_iff).mpr hseennd
    have hkeyserase : (root :: (ops ++ [op0]).map (fun op => op.1)).erase op0.1
        = root :: ops.map (fun op => op.1) := by
      rw [List.map_append]
      simp only [List.map_cons, List.map_nil]
      rw [show root :: (ops.map (fun op => op.1) ++ [op0.1])
          = (root :: ops.map (fun op => op.1)) ++ [op0.1] from rfl]
      rw [List.erase_append_right _ hc0seen, List.erase_cons_head, List.append_nil]
    have hek1 : ((eraseKey op0.1 m₁).map Prod.fst).Perm (root :: ops.map (fun op => op.1)) := by
      rw [map_fst_eraseKey hnd1, ← hkeyserase]
      exact hk1.erase op0.1
    have hek2 : ((eraseKey op0.1 m₂).map Prod.fst).Perm (root :: ops.map (fun op => op.1)) := by
      rw [map_fst_eraseKey hnd2, ← hkeyserase]
      exact hk2.erase op0.1
    have hrc : root ≠ op0.1 := fun hr => hc0seen (hr ▸ List.mem_cons_self root _)
    have hpc : op0.2.1 ≠ op0.1 := fun hr => hc0seen (hr ▸ hp0seen)
    have hchildne : ∀ op ∈ ops, op.1 ≠ op0.1 := by
      intro op hop hoc
      exact hc0seen (hoc ▸ List.mem_cons_of_mem _ (List.mem_map.2 ⟨op, hop, rfl⟩))
    have hparentne : ∀ op ∈ ops, op.2.1 ≠ op0.1 := by
      intro op hop hoc
      have := goodOps_parent_mem ops [root] h1 op hop
      rw [List.singleton_append] at this
      exact hc0seen (hoc ▸ this)
    have hih := ih h1 (eraseKey op0.1 m₁) (eraseKey op0.1 m₂) hek1 hek2
      (by rw [alist_get_eraseKey_ne hrc]; exact hr1)
      (by rw [alist_get_eraseKey_ne hrc]; exact hr2)
      (by
        intro op hop
        rw [alist_get_eraseKey_ne (hchildne op hop),
          alist_get_eraseKey_ne (hparentne op hop)]
        exact he1 op (List.mem_append.2 (Or.inl hop)))
      (by
        intro op hop
        rw [alist_get_eraseKey_ne (hchildne op hop),
          alist_get_eraseKey_ne (hparentne op hop)]
        exact he2 op (List.mem_append.2 (Or.inl hop)))
    by_cases hk : k = op0.1
    · subst hk
      have q1 := he1 op0 (List.mem_append.2 (Or.inr (List.mem_singleton.2 rfl)))
      have q2 := he2 op0 (List.mem_append.2 (Or.inr (List.mem_singleton.2 rfl)))
      rw [q1, q2]
      have := hih op0.2.1
      rw [alist_get_eraseKey_ne hpc, alist_get_eraseKey_ne hpc] at this
      rw [this]
    · have e1 := alist_get_eraseKey_ne (l := m₁) (c := op0.1) hk
      have e2 := alist_get_eraseKey_ne (l := m₂) (c := op0.1) hk
      rw [← e1, ← e2]
      exact hih k

/-- On built hierarchies the computed table agrees, lookup for lookup, with
the reference table `specGlobals`. -/
theorem calc_eq_spec [DecidableEq ID] {root : ID} {ops : List (ID × ID × Transform)}
    (h : goodOps [root] ops) (k : ID) :
    alist_get (build root ops).calculate_global_transforms k
      = alist_get (specGlobals root ops) k := by
  obtain ⟨hkperm, hknd, hroot, hchild⟩ := calc_facts h
  refine global_map_unique ops h _ _ hkperm ?_ hroot (specGlobals_root root ops) hchild
    (specGlobals_child ops h) k
  rw [specGlobals_keys]

/-! ### Support lemmas for the remaining claims -/

theorem mem_hmInsert_keys [DecidableEq ID] {m : List (ID × Transform)} {k k2 : ID}
    {v : Transform} (h : k2 ∈ (hmInsert m k v).map Prod.fst) :
    k2 ∈ m.map Prod.fst ∨ k2 = k := by
  rw [hmInsert] at h
  by_cases hp : (alist_get m k).isSome
  · rw [if_pos hp] at h
    left
    rcases List.mem_map.1 h with ⟨q, hq, hq1⟩
    rcases List.mem_map.1 hq with ⟨q0, hq0, hq01⟩
    by_cases hq0k : q0.1 = k
    · rw [← hq01, if_pos hq0k] at hq1
      have hk2 : k2 = k := hq1.symm.trans rfl
      refine List.mem_map.2 ⟨q0, hq0, ?_⟩
      rw [hq0k, ← hk2]
    · rw [← hq01, if_neg hq0k] at hq1
      exact List.mem_map.2 ⟨q0, hq0, hq1⟩
  · rw [if_neg hp, List.map_append, List.mem_append] at h
    rcases h with h | h
    · exact Or.inl h
    · right
      simpa using h
  
theorem childrenOf_subset_targets [DecidableEq ID] {g : NodeGraph ID Unit Transform}
    {x ch : ID} (h : ch ∈ childrenOf g x) : ch ∈ edgeTargets g := by
  rw [childrenOf, NodeGraph.outgoing] at h
  rcases List.mem_map.1 h with ⟨q, hq, hq1⟩
  rcases List.mem_filterMap.1 hq with ⟨e, he, hif⟩
  by_cases hx : e.1 = x
  · rw [if_pos hx] at hif
    have : q = (e.2.1, e.2.2) := by injection hif with h2; exact h2.symm
    rw [edgeTargets, ← hq1, this]
    exact List.mem_map.2 ⟨e, he, rfl⟩
  · rw [if_neg hx] at hif
    exact absurd hif (by simp)

theorem foldl_traverse_keys [DecidableEq ID] (g : NodeGraph ID Unit Transform)
    (fuel : Nat) (glob : Transform)
    (H : ∀ (x : ID) (cur : Transform) (m : List (ID × Transform)) (k : ID),
      k ∈ (SceneGraph.traverse g fuel x cur m).map Prod.fst →
      k ∈ m.map Prod.fst ∨ k = x ∨ k ∈ edgeTargets g) :
    ∀ (cs : List ID) (m : List (ID × Transform)) (k : ID),
      (∀ c ∈ cs, c ∈ edgeTargets g) →
      k ∈ ((cs.foldl (fun acc cid => SceneGraph.traverse g fuel cid glob acc) m).map Prod.fst) →
      k ∈ m.map Prod.fst ∨ k ∈ edgeTargets g := by
  intro cs
  induction cs with
  | nil => intro m k _ h; exact Or.inl h
  | cons c cs ih =>
    intro m k hcs h
    rw [List.foldl_cons] at h
    rcases ih _ k (fun c2 hc2 => hcs c2 (List.mem_cons_of_mem _ hc2)) h with h1 | h1
    · rcases H c glob m k h1 with h2 | h2 | h2
      · exact Or.inl h2
      · exact Or.inr (h2 ▸ hcs c (List.mem_cons_self _ _))
      · exact Or.inr h2
    · exact Or.inr h1

/-- Every key in the traversal output is either already in the accumulator,
the start node, or the target of some stored edge. -/
theorem traverse_keys_subset [DecidableEq ID] (g : NodeGraph ID Unit Transform) :
    ∀ (fuel : Nat) (x : ID) (cur : Transform) (m : List (ID × Transform)) (k : ID),
      k ∈ (SceneGraph.traverse g fuel x cur m).map Prod.fst →
      k ∈ m.map Prod.fst ∨ k = x ∨ k ∈ edgeTargets g := by
  intro fuel
  induction fuel with
  | zero =>
    intro x cur m k h
    rw [traverse_zero] at h
    exact Or.inl h
  | succ fuel ih =>
    intro x cur m k h
    cases hdata : g.node_data x with
    | none =>
      rw [traverse_succ_none cur m hdata] at h
      exact Or.inl h
    | some lt =>
      rw [traverse_succ_some cur m hdata] at h
      rcases foldl_traverse_keys g fuel (lt.aggregate cur) ih (childrenOf g x) _ k
          (fun c hc => childrenOf_subset_targets hc) h with h1 | h1
      · rcases mem_hmInsert_keys h1 with h2 | h2
        · exact Or.inl h2
        · exact Or.inr (Or.inl h2)
      · exact Or.inr (Or.inr h1)

theorem calc_keys_subset [DecidableEq ID] (sg : SceneGraph ID) (k : ID)
    (h : k ∈ sg.calculate_global_transforms.map Prod.fst) :
    k = sg.root_id ∨ k ∈ edgeTargets sg.graph := by
  rw [SceneGraph.calculate_global_transforms] at h
  rcases traverse_keys_subset sg.graph sg.graph.nodes.length sg.root_id _ [] k h with
    h1 | h1 | h1
  · exact absurd h1 (List.not_mem_nil k)
  · exact Or.inl h1
  · exact Or.inr h1

theorem add_child_root_id [DecidableEq ID] (sg : SceneGraph ID) (a b : ID)
    (t : Transform) : (sg.add_child a b t).1.root_id = sg.root_id := by
  simp only [SceneGraph.add_child]
  rcases he : (sg.graph.add_node a t).add_edge b a () with g2 | g2 <;> rfl

theorem add_child_edgeTargets [DecidableEq ID] (sg : SceneGraph ID) (a b : ID)
    (t : Transform) :
    edgeTargets (sg.add_child a b t).1.graph = edgeTargets sg.graph ∨
    edgeTargets (sg.add_child a b t).1.graph = edgeTargets sg.graph ++ [a] := by
  simp only [SceneGraph.add_child, NodeGraph.add_edge]
  by_cases hc : (sg.graph.add_node a t).contains_node b = true
  · right
    rw [if_pos hc]
    show ((sg.graph.add_node a t).edges ++ [(b, a, ())]).map (fun e => e.2.1) = _
    rw [add_node_edges, List.map_append]
    rfl
  · left
    rw [if_neg hc]
    show (sg.graph.add_node a t).edges.map (fun e => e.2.1) = _
    rw [add_node_edges]
    rfl

/-- Replaying any further calls whose child identifiers avoid `c` never makes
`c` the target of an edge, and never changes the root identifier. -/
theorem applyOps_avoid [DecidableEq ID] (c : ID) :
    ∀ (ops : List (ID × ID × Transform)) (sg : SceneGraph ID),
      (∀ op ∈ ops, op.1 ≠ c) →
      c ∉ edgeTargets sg.graph →
      c ∉ edgeTargets (applyOps sg ops).graph ∧ (applyOps sg ops).root_id = sg.root_id := by
  intro ops
  induction ops with
  | nil => intro sg _ h; exact ⟨h, rfl⟩
  | cons op ops ih =>
    intro sg havoid h
    have hnext : c ∉ edgeTargets (sg.add_child op.1 op.2.1 op.2.2).1.graph := by
      rcases add_child_edgeTargets sg op.1 op.2.1 op.2.2 with he | he
      · rw [he]; exact h
      · rw [he, List.mem_append]
        rintro (h1 | h1)
        · exact h h1
        · rw [List.mem_singleton] at h1
          exact havoid op (List.mem_cons_self _ _) h1.symm
    have := ih (sg.add_child op.1 op.2.1 op.2.2).1
      (fun op2 hop2 => havoid op2 (List.mem_cons_of_mem _ hop2)) hnext
    exact ⟨this.1, this.2.trans (add_child_root_id sg op.1 op.2.1 op.2.2)⟩

theorem applyOps_append [DecidableEq ID] :
    ∀ (l1 l2 : List (ID × ID × Transform)) (sg : SceneGraph ID),
      applyOps sg (l1 ++ l2) = applyOps (applyOps sg l1) l2 := by
  intro l1
  induction l1 with
  | nil => intro l2 sg; rfl
  | cons op l1 ih => intro l2 sg; exact ih l2 _

theorem calc_root_missing [DecidableEq ID] {sg : SceneGraph ID}
    (h : sg.graph.node_data sg.root_id = none) :
    sg.calculate_global_transforms = [] := by
  rw [SceneGraph.calculate_global_transforms]
  cases hl : sg.graph.nodes.length with
  | zero => rw [traverse_zero]
  | succ n => rw [traverse_succ_none _ _ h]

theorem calc_new [DecidableEq ID] (root : ID) :
    (SceneGraph.new root).calculate_global_transforms = [(root, Transform.new 0 0 0)] := by
  have h : goodOps [root] ([] : List (ID × ID × Transform)) := trivial
  rw [show (SceneGraph.new root) = build root [] from rfl, calc_eq_visitList h]
  rw [visitList_succ_some (Transform.new 0 0 0) (build_node_data_root h)]
  rw [aggregate_identity]
  rw [show childrenOf (build root []).graph root = [] from rfl]
  rfl

/-- Swapping the two final sibling insertions leaves every lookup of the
reference table unchanged. -/
theorem specGlobals_swap [DecidableEq ID] {root p c₁ c₂ : ID} {t₁ t₂ : Transform}
    {ops : List (ID × ID × Transform)}
    (hp : p ∈ root :: ops.map (fun op => op.1))
    (hc1 : c₁ ∉ root :: ops.map (fun op => op.1))
    (hc2 : c₂ ∉ root :: ops.map (fun op => op.1))
    (hne : c₁ ≠ c₂) (k : ID) :
    alist_get (specGlobals root (ops ++ [(c₁, p, t₁), (c₂, p, t₂)])) k
      = alist_get (specGlobals root (ops ++ [(c₂, p, t₂), (c₁, p, t₁)])) k := by
  have hsplit1 : ops ++ [(c₁, p, t₁), (c₂, p, t₂)]
      = (ops ++ [(c₁, p, t₁)]) ++ [(c₂, p, t₂)] := by
    rw [List.append_assoc]
    rfl
  have hsplit2 : ops ++ [(c₂, p, t₂), (c₁, p, t₁)]
      = (ops ++ [(c₂, p, t₂)]) ++ [(c₁, p, t₁)] := by
    rw [List.append_assoc]
    rfl
  have hpc1 : p ≠ c₁ := fun h => hc1 (h ▸ hp)
  have hpc2 : p ≠ c₂ := fun h => hc2 (h ▸ hp)
  have hS1 : alist_get (specGlobals root ops) c₁ = none := by
    rw [alist_get_eq_none_iff, specGlobals_keys]
    exact hc1
  have hS2 : alist_get (specGlobals root ops) c₂ = none := by
    rw [alist_get_eq_none_iff, specGlobals_keys]
    exact hc2
  rw [hsplit1, hsplit2, specGlobals_snoc, specGlobals_snoc, specGlobals_snoc,
    specGlobals_snoc, alist_get_append_singleton_ne hpc1,
    alist_get_append_singleton_ne hpc2]
  by_cases hk1 : k = c₁
  · subst hk1
    have h1 : alist_get (specGlobals root ops
        ++ [(k, t₁.aggregate ((alist_get (specGlobals root ops) p).getD
              (Transform.new 0 0 0)))]) k
        = some (t₁.aggregate ((alist_get (specGlobals root ops) p).getD
              (Transform.new 0 0 0))) := by
      rw [alist_get_append_right hS1]
      simp [alist_get]
    rw [alist_get_append_left h1]
    have h2 : alist_get (specGlobals root ops
        ++ [(c₂, t₂.aggregate ((alist_get (specGlobals root ops) p).getD
              (Transform.new 0 0 0)))]) k
        = none := by
      rw [alist_get_append_singleton_ne hne]
      exact hS1
    rw [alist_get_append_right h2]
    simp [alist_get]
  · by_cases hk2 : k = c₂
    · subst hk2
      have h1 : alist_get (specGlobals root ops
          ++ [(c₁, t₁.aggregate ((alist_get (specGlobals root ops) p).getD
                (Transform.new 0 0 0)))]) k
          = none := by
        rw [alist_get_append_singleton_ne hk1]
        exact hS2
      rw [alist_get_append_right h1]
      have h2 : alist_get (specGlobals root ops
          ++ [(k, t₂.aggregate ((alist_get (specGlobals root ops) p).getD
                (Transform.new 0 0 0)))]) k
          = some (t₂.aggregate ((alist_get (specGlobals root ops) p).getD
                (Transform.new 0 0 0))) := by
        rw [alist_get_append_right hS2]
        simp [alist_get]
      rw [alist_get_append_left h2]
      simp [alist_get]
    · rw [alist_get_append_singleton_ne hk2, alist_get_append_singleton_ne hk1,
        alist_get_append_singleton_ne hk1, alist_get_append_singleton_ne hk2]

/-! ### The claims -/

/-- Claim C1 (confirmed): for every hierarchy built via `construct` and
successful `add_child` calls — per the §4.1 `add_child` contract the child
identifier is new and the parent an existing node, captured by `goodOps`,
under which every call is proved to return `Ok` (first conjunct) — the
computed mapping assigns to the root its own local transform (the identity,
since the root's "parent transform" is taken to be the identity), and to every
added child the `aggregate` of its local transform with its parent's global
transform. -/
theorem C1_parent_child_aggregation [DecidableEq ID] (root : ID)
    (ops : List (ID × ID × Transform)) (h : goodOps [root] ops) :
    opsSucceed (SceneGraph.new root) ops ∧
    alist_get (build root ops).calculate_global_transforms root
      = some (Transform.new 0 0 0) ∧
    ∀ op ∈ ops,
      alist_get (build root ops).calculate_global_transforms op.1
        = some (op.2.2.aggregate
            ((alist_get (build root ops).calculate_global_transforms op.2.1).getD
              (Transform.new 0 0 0))) :=
  ⟨(build_shape root ops h).2.2.2, (calc_facts h).2.2.1, (calc_facts h).2.2.2⟩

/-- Witness for C1 at the concrete two-node build `0 ← 1`. -/
theorem C1_parent_child_aggregation_witness :
    goodOps [(0 : ℕ)] [(1, 0, Transform.new 1 2 3)] ∧
    (opsSucceed (SceneGraph.new (0 : ℕ)) [(1, 0, Transform.new 1 2 3)] ∧
      alist_get (build (0 : ℕ) [(1, 0, Transform.new 1 2 3)]).calculate_global_transforms 0
        = some (Transform.new 0 0 0) ∧
      ∀ op ∈ [((1 : ℕ), (0 : ℕ), Transform.new 1 2 3)],
        alist_get (build (0 : ℕ)
            [(1, 0, Transform.new 1 2 3)]).calculate_global_transforms op.1
          = some (op.2.2.aggregate
              ((alist_get (build (0 : ℕ)
                  [(1, 0, Transform.new 1 2 3)]).calculate_global_transforms op.2.1).getD
                (Transform.new 0 0 0)))) :=
  ⟨by decide, C1_parent_child_aggregation 0 [(1, 0, Transform.new 1 2 3)] (by decide)⟩

/-- Claim C2 (confirmed): the driver's concrete 4-node tree — root (0,0,0);
child1 local (1,0,30) under root; child2 local (0,2,−15) under root;
grandchild local (0.5,0.5,45) under child1 — yields exactly the globals
root=(0,0,0), child1=(1,0,30), child2=(0,2,−15), grandchild=(1.5,0.5,75), and
no other entries. -/
theorem C2_concrete_scenario :
    alist_get exampleScene.calculate_global_transforms "root"
      = some (Transform.new 0 0 0) ∧
    alist_get exampleScene.calculate_global_transforms "child1"
      = some (Transform.new 1 0 30) ∧
    alist_get exampleScene.calculate_global_transforms "child2"
      = some (Transform.new 0 2 (-15)) ∧
    alist_get exampleScene.calculate_global_transforms "grandchild"
      = some (Transform.new (3/2) (1/2) 75) ∧
    exampleScene.calculate_global_transforms.length = 4 := by
  refine ⟨?_, ?_, ?_, ?_, rfl⟩ <;>
    norm_num [exampleScene, SceneGraph.new, SceneGraph.add_child,
      SceneGraph.calculate_global_transforms, SceneGraph.traverse, NodeGraph.new,
      NodeGraph.add_node, NodeGraph.add_edge, NodeGraph.node_data,
      NodeGraph.contains_node, NodeGraph.outgoing,
      NodeGraph.get_edges_connected_to_node, alist_get, hmInsert,
      Transform.aggregate, Transform.new,
      (by decide : ("root" : String) ≠ "child1"),
      (by decide : ("root" : String) ≠ "child2"),
      (by decide : ("root" : String) ≠ "grandchild"),
      (by decide : ("child1" : String) ≠ "child2"),
      (by decide : ("child1" : String) ≠ "grandchild"),
      (by decide : ("child2" : String) ≠ "grandchild"),
      (by decide : ("child1" : String) ≠ "root"),
      (by decide : ("child2" : String) ≠ "root"),
      (by decide : ("grandchild" : String) ≠ "root"),
      (by decide : ("child2" : String) ≠ "child1"),
      (by decide : ("grandchild" : String) ≠ "child1"),
      (by decide : ("grandchild" : String) ≠ "child2")]

/-- Claim C3 (confirmed): a tree built by N successful `add_child` calls with
pairwise-distinct fresh child identifiers and already-present parents
(`goodOps`, the §4.1 contract; the calls are proved to succeed in the first
conjunct) yields a table with exactly N+1 entries, whose keys are, without
duplication or omission, the root plus the N children. -/
theorem C3_reachability_completeness [DecidableEq ID] (root : ID)
    (ops : List (ID × ID × Transform)) (h : goodOps [root] ops) :
    opsSucceed (SceneGraph.new root) ops ∧
    (build root ops).calculate_global_transforms.length = ops.length + 1 ∧
    ((build root ops).calculate_global_transforms.map Prod.fst).Nodup ∧
    ((build root ops).calculate_global_transforms.map Prod.fst).Perm
      (root :: ops.map (fun op => op.1)) := by
  obtain ⟨hkperm, hknd, _, _⟩ := calc_facts h
  refine ⟨(build_shape root ops h).2.2.2, ?_, hknd, hkperm⟩
  have hlen := hkperm.length_eq
  rw [List.length_map] at hlen
  rw [hlen, List.length_cons, List.length_map]

/-- Witness for C3 at the concrete three-node build `0 ← 1 ← 2`. -/
theorem C3_reachability_completeness_witness :
    goodOps [(0 : ℕ)] [(1, 0, Transform.new 1 2 3), (2, 1, Transform.new 4 5 6)] ∧
    (opsSucceed (SceneGraph.new (0 : ℕ))
        [(1, 0, Transform.new 1 2 3), (2, 1, Transform.new 4 5 6)] ∧
      (build (0 : ℕ) [(1, 0, Transform.new 1 2 3),
          (2, 1, Transform.new 4 5 6)]).calculate_global_transforms.length = 2 + 1 ∧
      ((build (0 : ℕ) [(1, 0, Transform.new 1 2 3),
          (2, 1, Transform.new 4 5 6)]).calculate_global_transforms.map Prod.fst).Nodup ∧
      ((build (0 : ℕ) [(1, 0, Transform.new 1 2 3),
          (2, 1, Transform.new 4 5 6)]).calculate_global_transforms.map Prod.fst).Perm
        (0 :: [((1 : ℕ), (0 : ℕ), Transform.new 1 2 3),
          (2, 1, Transform.new 4 5 6)].map (fun op => op.1))) :=
  ⟨by decide, C3_reachability_completeness 0
    [(1, 0, Transform.new 1 2 3), (2, 1, Transform.new 4 5 6)] (by decide)⟩

/-- Claim C4 (confirmed): a freshly constructed hierarchy stores the identity
transform (position (0,0), rotation 0) as the root's local transform, and its
computed table is exactly one entry mapping the root identifier to that local
transform. -/
theorem C4_identity_root [DecidableEq ID] (root_id : ID) :
    (SceneGraph.new root_id).graph.node_data root_id = some (Transform.new 0 0 0) ∧
    (SceneGraph.new root_id).calculate_global_transforms
      = [(root_id, Transform.new 0 0 0)] :=
  ⟨add_node_node_data_self NodeGraph.new root_id (Transform.new 0 0 0), calc_new root_id⟩

/-- Claim C5 (counterexample): an `add_child` call whose parent identifier is
absent from the store does NOT always return an error — when
`parent_id = child_id` the child node is inserted first, which makes the
"parent" exist by the time the edge is inserted, and the call succeeds. -/
theorem C5_counterexample :
    (1 : ℕ) ∉ nodeIds (SceneGraph.new (0 : ℕ)).graph ∧
    ((SceneGraph.new (0 : ℕ)).add_child 1 1 (Transform.new 5 5 5)).2 = .ok () :=
  ⟨by decide, rfl⟩

/-- Claim C5 (amended): on a built hierarchy, an `add_child` call whose parent
identifier is absent from the store, is distinct from the child identifier,
and whose child identifier is fresh, returns the descriptive recoverable
error; and the orphaned child never appears in the output of
`calculate_global_transforms`, after this call and after any further
`add_child` calls that do not reuse the child identifier. -/
theorem C5_missing_parent_amended [DecidableEq ID] (root : ID)
    (ops more : List (ID × ID × Transform)) (c p : ID) (t : Transform)
    (h : goodOps [root] ops)
    (hp : p ∉ nodeIds (build root ops).graph)
    (hc : c ∉ nodeIds (build root ops).graph)
    (hpc : p ≠ c)
    (hmore : ∀ op ∈ more, op.1 ≠ c) :
    ((build root ops).add_child c p t).2
        = .error "Failed to add edge. Does the parent exist?" ∧
    c ∉ (applyOps ((build root ops).add_child c p t).1
        more).calculate_global_transforms.map Prod.fst := by
  have herr := add_child_error t hp hpc
  constructor
  · rw [herr]
  · have htargets : c ∉ edgeTargets ((build root ops).add_child c p t).1.graph := by
      rw [herr]
      show c ∉ ((build root ops).graph.add_node c t).edges.map (fun e => e.2.1)
      rw [add_node_edges, (build_shape root ops h).2.1]
      intro hmem
      rcases List.mem_map.1 hmem with ⟨e, he, he1⟩
      rcases List.mem_map.1 he with ⟨op, hop, hope⟩
      rw [← hope] at he1
      apply hc
      rw [nodeIds_build h]
      exact List.mem_cons_of_mem _ (List.mem_map.2 ⟨op, hop, he1⟩)
    have hroot : ((build root ops).add_child c p t).1.root_id = root := by
      rw [herr]
      exact (build_shape root ops h).2.2.1
    obtain ⟨hfin, hfinroot⟩ := applyOps_avoid c more _ hmore htargets
    intro hmem
    rcases calc_keys_subset _ c hmem with h1 | h1
    · rw [hfinroot, hroot] at h1
      apply hc
      rw [nodeIds_build h, h1]
      exact List.mem_cons_self _ _
    · exact hfin h1

/-- Witness for the amended C5: orphaned insertion of `1` under the missing
parent `2` in the one-node hierarchy rooted at `0`. -/
theorem C5_missing_parent_amended_witness :
    (goodOps [(0 : ℕ)] [] ∧ (2 : ℕ) ∉ nodeIds (build (0 : ℕ) []).graph ∧
      (1 : ℕ) ∉ nodeIds (build (0 : ℕ) []).graph ∧ (2 : ℕ) ≠ 1 ∧
      ∀ op ∈ ([] : List (ℕ × ℕ × Transform)), op.1 ≠ 1) ∧
    (((build (0 : ℕ) []).add_child 1 2 (Transform.new 5 5 5)).2
        = .error "Failed to add edge. Does the parent exist?" ∧
      (1 : ℕ) ∉ (applyOps ((build (0 : ℕ) []).add_child 1 2 (Transform.new 5 5 5)).1
          []).calculate_global_transforms.map Prod.fst) :=
  ⟨⟨trivial, by decide, by decide, by decide, by decide⟩,
    C5_missing_parent_amended 0 [] [] 1 2 (Transform.new 5 5 5) trivial (by decide)
      (by decide) (by decide) (by decide)⟩

/-- Claim C6 (confirmed): every failing `add_child` call has nevertheless
already inserted the child node with its local transform into the store
(`add_child` is not atomic), while adding no edge — the inserted node is an
orphan. -/
theorem C6_failed_call_leaves_orphan [DecidableEq ID] (sg : SceneGraph ID)
    (c p : ID) (t : Transform) (msg : String)
    (h : (sg.add_child c p t).2 = .error msg) :
    (sg.add_child c p t).1.graph.node_data c = some t ∧
    (sg.add_child c p t).1.graph.edges = sg.graph.edges :=
  add_child_failed_inserted h

/-- Witness for C6: the failed insertion of `1` under the missing parent `2`. -/
theorem C6_failed_call_leaves_orphan_witness :
    ((SceneGraph.new (0 : ℕ)).add_child 1 2 (Transform.new 5 5 5)).2
      = .error "Failed to add edge. Does the parent exist?" ∧
    (((SceneGraph.new (0 : ℕ)).add_child 1 2 (Transform.new 5 5 5)).1.graph.node_data 1
        = some (Transform.new 5 5 5) ∧
      ((SceneGraph.new (0 : ℕ)).add_child 1 2 (Transform.new 5 5 5)).1.graph.edges
        = (SceneGraph.new (0 : ℕ)).graph.edges) :=
  ⟨rfl, C6_failed_call_leaves_orphan _ 1 2 _ _ rfl⟩

/-- Claim C8 (confirmed): adding two distinct fresh children under the same
already-present parent in either order yields computed tables that agree on
every lookup (`HashMap` equality). -/
theorem C8_sibling_order_invariance [DecidableEq ID] (root : ID)
    (ops : List (ID × ID × Transform)) (p c₁ c₂ : ID) (t₁ t₂ : Transform)
    (h : goodOps [root] ops)
    (hp : p ∈ nodeIds (build root ops).graph)
    (hc1 : c₁ ∉ nodeIds (build root ops).graph)
    (hc2 : c₂ ∉ nodeIds (build root ops).graph)
    (hne : c₁ ≠ c₂) :
    ∀ k, alist_get (build root
        (ops ++ [(c₁, p, t₁), (c₂, p, t₂)])).calculate_global_transforms k
      = alist_get (build root
        (ops ++ [(c₂, p, t₂), (c₁, p, t₁)])).calculate_global_transforms k := by
  rw [nodeIds_build h] at hp hc1 hc2
  have hg1 : goodOps [root] (ops ++ [(c₁, p, t₁), (c₂, p, t₂)]) := by
    rw [goodOps_append]
    refine ⟨h, ?_⟩
    simp only [List.singleton_append, goodOps]
    refine ⟨hp, hc1, List.mem_append.2 (Or.inl hp), ?_, trivial⟩
    rw [List.mem_append]
    rintro (hx | hx)
    · exact hc2 hx
    · rw [List.mem_singleton] at hx
      exact hne hx.symm
  have hg2 : goodOps [root] (ops ++ [(c₂, p, t₂), (c₁, p, t₁)]) := by
    rw [goodOps_append]
    refine ⟨h, ?_⟩
    simp only [List.singleton_append, goodOps]
    refine ⟨hp, hc2, List.mem_append.2 (Or.inl hp), ?_, trivial⟩
    rw [List.mem_append]
    rintro (hx | hx)
    · exact hc1 hx
    · rw [List.mem_singleton] at hx
      exact hne hx
  intro k
  rw [calc_eq_spec hg1 k, calc_eq_spec hg2 k]
  exact specGlobals_swap hp hc1 hc2 hne k

/-- Witness for C8: children `1` and `2` under the root `0`, in both orders. -/
theorem C8_sibling_order_invariance_witness :
    (goodOps [(0 : ℕ)] [] ∧ (0 : ℕ) ∈ nodeIds (build (0 : ℕ) []).graph ∧
      (1 : ℕ) ∉ nodeIds (build (0 : ℕ) []).graph ∧
      (2 : ℕ) ∉ nodeIds (build (0 : ℕ) []).graph ∧ (1 : ℕ) ≠ 2) ∧
    ∀ k, alist_get (build (0 : ℕ)
        ([] ++ [(1, 0, Transform.new 1 0 0), (2, 0, Transform.new 0 1 0)])).calculate_global_transforms k
      = alist_get (build (0 : ℕ)
        ([] ++ [(2, 0, Transform.new 0 1 0), (1, 0, Transform.new 1 0 0)])).calculate_global_transforms k :=
  ⟨⟨trivial, by decide, by decide, by decide, by decide⟩,
    C8_sibling_order_invariance 0 [] 0 1 2 (Transform.new 1 0 0) (Transform.new 0 1 0)
      trivial (by decide) (by decide) (by decide) (by decide)⟩

/-- Claim C9 (confirmed): when the root identifier is absent from the store,
`calculate_global_transforms` does not fail: it substitutes the identity for
the root's local value, the traversal finds no root node, and the result is
the empty mapping. -/
theorem C9_missing_root_defaults [DecidableEq ID] (sg : SceneGraph ID)
    (h : sg.graph.node_data sg.root_id = none) :
    sg.calculate_global_transforms = [] :=
  calc_root_missing h

/-- Witness for C9: a hierarchy whose store is empty. -/
theorem C9_missing_root_defaults_witness :
    ({ graph := { nodes := [], edges := [] }, root_id := 0 } :
        SceneGraph ℕ).graph.node_data
      ({ graph := { nodes := [], edges := [] }, root_id := 0 } : SceneGraph ℕ).root_id
        = none ∧
    ({ graph := { nodes := [], edges := [] }, root_id := 0 } :
        SceneGraph ℕ).calculate_global_transforms = [] :=
  ⟨rfl, C9_missing_root_defaults _ rfl⟩

/-- Claim C10 (counterexample): a successful `add_child` with a fresh child
identifier need not add an entry for the child — with `parent_id = child_id`
the call succeeds but creates an unreachable self-loop orphan, and the output
is unchanged with no entry for the child. -/
theorem C10_counterexample :
    (1 : ℕ) ∉ nodeIds (SceneGraph.new (0 : ℕ)).graph ∧
    ((SceneGraph.new (0 : ℕ)).add_child 1 1 (Transform.new 5 5 5)).2 = .ok () ∧
    alist_get ((SceneGraph.new (0 : ℕ)).add_child 1 1
        (Transform.new 5 5 5)).1.calculate_global_transforms 1 = none :=
  ⟨by decide, rfl, rfl⟩

/-- Claim C10 (amended): a successful `add_child` of a fresh child under an
ALREADY-PRESENT parent returns `Ok`, and the new computed table agrees with
the previous one on every identifier other than the child and contains exactly
one new entry, for the child (the child was absent before and the table grows
by one).  `calculate_global_transforms` itself takes the hierarchy immutably
in this embedding, so it cannot mutate it. -/
theorem C10_frame_amended [DecidableEq ID] (root : ID)
    (ops : List (ID × ID × Transform)) (c p : ID) (t : Transform)
    (h : goodOps [root] ops)
    (hp : p ∈ nodeIds (build root ops).graph)
    (hc : c ∉ nodeIds (build root ops).graph) :
    ((build root ops).add_child c p t).2 = .ok () ∧
    ((build root ops).add_child c p t).1 = build root (ops ++ [(c, p, t)]) ∧
    (∀ k, k ≠ c →
      alist_get (build root (ops ++ [(c, p, t)])).calculate_global_transforms k
        = alist_get (build root ops).calculate_global_transforms k) ∧
    alist_get (build root ops).calculate_global_transforms c = none ∧
    alist_get (build root (ops ++ [(c, p, t)])).calculate_global_transforms c
      = some (t.aggregate
          ((alist_get (build root ops).calculate_global_transforms p).getD
            (Transform.new 0 0 0))) ∧
    (build root (ops ++ [(c, p, t)])).calculate_global_transforms.length
      = (build root ops).calculate_global_transforms.length + 1 := by
  have hseen := nodeIds_build h
  have hp2 : p ∈ root :: ops.map (fun op => op.1) := hseen ▸ hp
  have hc2 : c ∉ root :: ops.map (fun op => op.1) := hseen ▸ hc
  have hgood2 : goodOps [root] (ops ++ [(c, p, t)]) := by
    rw [goodOps_append]
    refine ⟨h, ?_⟩
    simp only [List.singleton_append, goodOps]
    exact ⟨hp2, hc2, trivial⟩
  have hok := add_child_ok t hc hp
  have hstate : build root (ops ++ [(c, p, t)]) = ((build root ops).add_child c p t).1 := by
    simp only [build]
    rw [applyOps_append]
    rfl
  have hnone : alist_get (build root ops).calculate_global_transforms c = none := by
    rw [alist_get_eq_none_iff]
    intro hmem
    exact hc2 (((calc_facts h).1.mem_iff).mp hmem)
  have hspecnone : alist_get (specGlobals root ops) c = none := by
    rw [alist_get_eq_none_iff, specGlobals_keys]
    exact hc2
  refine ⟨?_, hstate.symm, ?_, hnone, ?_, ?_⟩
  · rw [hok]
  · intro k hk
    rw [calc_eq_spec hgood2 k, calc_eq_spec h k, specGlobals_snoc]
    exact alist_get_append_singleton_ne hk
  · rw [calc_eq_spec hgood2 c, specGlobals_snoc, alist_get_append_right hspecnone,
      calc_eq_spec h p]
    simp [alist_get]
  · have l1 := ((calc_facts hgood2).1).length_eq
    have l2 := ((calc_facts h).1).length_eq
    rw [List.length_map] at l1 l2
    rw [l1, l2]
    simp

/-- Witness for the amended C10: adding child `1` under the root `0`. -/
theorem C10_frame_amended_witness :
    (goodOps [(0 : ℕ)] [] ∧ (0 : ℕ) ∈ nodeIds (build (0 : ℕ) []).graph ∧
      (1 : ℕ) ∉ nodeIds (build (0 : ℕ) []).graph) ∧
    (((build (0 : ℕ) []).add_child 1 0 (Transform.new 7 8 9)).2 = .ok () ∧
      ((build (0 : ℕ) []).add_child 1 0 (Transform.new 7 8 9)).1
        = build (0 : ℕ) ([] ++ [(1, 0, Transform.new 7 8 9)]) ∧
      (∀ k, k ≠ 1 →
        alist_get (build (0 : ℕ)
            ([] ++ [(1, 0, Transform.new 7 8 9)])).calculate_global_transforms k
          = alist_get (build (0 : ℕ) []).calculate_global_transforms k) ∧
      alist_get (build (0 : ℕ) []).calculate_global_transforms 1 = none ∧
      alist_get (build (0 : ℕ)
          ([] ++ [(1, 0, Transform.new 7 8 9)])).calculate_global_transforms 1
        = some ((Transform.new 7 8 9).aggregate
            ((alist_get (build (0 : ℕ) []).calculate_global_transforms 0).getD
              (Transform.new 0 0 0))) ∧
      (build (0 : ℕ)
          ([] ++ [(1, 0, Transform.new 7 8 9)])).calculate_global_transforms.length
        = (build (0 : ℕ) []).calculate_global_transforms.length + 1) :=
  ⟨⟨trivial, by decide, by decide⟩,
    C10_frame_amended 0 [] 1 0 (Transform.new 7 8 9) trivial (by decide) (by decide)⟩
